import Mathlib

/-!
Task scheduler: recurrence engine and task handlers.

A shallow embedding of `main.go`: the function `nextDate`, the handlers
`addTaskHandler`, `editTaskHandler`, `taskDoneHandler`, `deleteTaskHandler`, and the
parts of the Go standard library they call (`time.Parse`, `Time.AddDate`,
`Time.Before`, `Time.Format` for the layout `20060102`, and `fmt.Sscanf` for the
format `d %d`).

Conventions.

* A Go `string` is a Lean `String`. Go indexes strings by byte; every byte of a
  non-ASCII character is at least `0x80`, so it is never a digit, a sign, the letter
  `d` or one of the one-byte white-space characters, and the byte-level tests of the
  library agree with the character-level tests used here.
* A Go `int` is a Lean `Int`; the one place where the 64-bit width matters
  (`strconv.ParseInt` inside `Sscanf`) checks the range explicitly.
* A `time.Time` is an instant (nanoseconds since 0001-01-01 00:00:00 UTC) together
  with the offset of its location east of UTC.
* A Go `error` is dropped to `none` for the library calls, whose error text the
  program never inspects, and kept as a constructor of `NextDateError` for the
  errors `nextDate` creates itself.
* The `for` loops of `nextDate` run on a counter of iterations computed from the
  inputs (`loopFuel`); `stepWhileBefore_exit` shows that the counter never ends a
  loop, which always leaves through its condition.
* A handler starts from the decoded request and a working store: failures of JSON
  decoding and of the database driver are outside the model. The readings of
  `time.Now()` within one request are one value, `clock`.
-/

namespace Scheduler

/-! ## Package `time`: the proleptic Gregorian calendar -/

/-- Go `isLeap`: `year%4 == 0 && (year%100 != 0 || year%400 == 0)`. -/
def isLeap (year : Int) : Bool :=
  year % 4 == 0 && (year % 100 != 0 || year % 400 == 0)

/-- Go table `daysBefore`: `daysBefore m` is the number of days in a non-leap year
before month `m + 1` starts (`daysBefore 0 = 0`, `daysBefore 12 = 365`). -/
def daysBefore (m : Int) : Int :=
  if m ≤ 0 then 0 else if m = 1 then 31 else if m = 2 then 59 else if m = 3 then 90
  else if m = 4 then 120 else if m = 5 then 151 else if m = 6 then 181
  else if m = 7 then 212 else if m = 8 then 243 else if m = 9 then 273
  else if m = 10 then 304 else if m = 11 then 334 else 365

/-- Go `daysIn(month, year)`. -/
def daysIn (month year : Int) : Int :=
  if month = 2 ∧ isLeap year = true then 29 else daysBefore month - daysBefore (month - 1)

/-- Go `daysSinceEpoch`, with the epoch moved to 1 January of year 1: the number of
days from 0001-01-01 to 1 January of `year` (400-, 100-, 4- and 1-year cycles). -/
def daysSinceEpoch (year : Int) : Int :=
  let y := year - 1
  let n400 := y / 400
  let y1 := y - 400 * n400
  let n100 := y1 / 100
  let y2 := y1 - 100 * n100
  let n4 := y2 / 4
  let y3 := y2 - 4 * n4
  146097 * n400 + 36524 * n100 + 1461 * n4 + 365 * y3

/-- First half of Go `absDate`: the year containing day number `d` (days since
0001-01-01) and the zero-based day within that year. -/
def absYear (d : Int) : Int × Int :=
  let n400 := d / 146097
  let d1 := d - 146097 * n400
  let n100 := d1 / 36524
  let n100 := n100 - n100 / 4
  let d2 := d1 - 36524 * n100
  let n4 := d2 / 1461
  let d3 := d2 - 1461 * n4
  let n := d3 / 365
  let n := n - n / 4
  let yday := d3 - 365 * n
  (400 * n400 + 100 * n100 + 4 * n4 + n + 1, yday)

/-- Second half of Go `absDate`: month and day of the month from the zero-based day
of the year. -/
def monthDay (year yday : Int) : Int × Int :=
  if isLeap year = true ∧ yday = 59 then (2, 29)
  else
    let day := if isLeap year = true ∧ yday > 59 then yday - 1 else yday
    let month := day / 31
    let stop := daysBefore (month + 1)
    if day ≥ stop then (month + 2, day - stop + 1)
    else (month + 1, day - daysBefore month + 1)

/-- Nanoseconds in a day. -/
def nsPerDay : Int := 86400000000000

/-- A `time.Time`: the instant `ns` (nanoseconds since 0001-01-01 00:00:00 UTC) and
the offset of its location, in seconds east of UTC. -/
structure Time where
  ns : Int
  offset : Int
deriving DecidableEq, Repr

/-- Nanoseconds since 0001-01-01 00:00:00 in the location of `t`. -/
def Time.wall (t : Time) : Int := t.ns + t.offset * 1000000000

/-- Day number of `t` in its location (days since 0001-01-01). -/
def Time.absDay (t : Time) : Int := t.wall / nsPerDay

/-- Time of day of `t` in its location, in nanoseconds. -/
def Time.clock (t : Time) : Int := t.wall % nsPerDay

/-- Go `Time.Date()`: year, month and day of `t` in its location. -/
def Time.Date (t : Time) : Int × Int × Int :=
  let yd := absYear t.absDay
  let md := monthDay yd.1 yd.2
  (yd.1, md.1, md.2)

/-- Go `time.Date(year, month, day, ...)` for a time of day `clock` (nanoseconds) in a
location `offset` seconds east of UTC. Month and day may be out of range and are
normalised: the month overflows into the year, the day into the following months. -/
def Date (year month day clock offset : Int) : Time :=
  let m := month - 1
  let year := year + m / 12
  let m := m % 12
  let d := daysSinceEpoch year + daysBefore m
    + (if isLeap year = true ∧ m + 1 ≥ 3 then 1 else 0) + (day - 1)
  { ns := d * nsPerDay + clock - offset * 1000000000, offset := offset }

/-- Go `Time.AddDate(years, months, days)`. -/
def Time.AddDate (t : Time) (years months days : Int) : Time :=
  let ymd := t.Date
  Scheduler.Date (ymd.1 + years) (ymd.2.1 + months) (ymd.2.2 + days) t.clock t.offset

/-- Go `Time.Before`: the instant of `t` is earlier than the instant of `u`. -/
def Time.Before (t u : Time) : Bool := decide (t.ns < u.ns)

/-! ## Package `time`: the layout `20060102` -/

/-- Go `isDigit` on one character. -/
def isDigit (c : Char) : Bool := '0' ≤ c && c ≤ '9'

/-- Value of a decimal digit character. -/
def digitVal (c : Char) : Nat := c.toNat - 48

/-- Value of a run of decimal digits, most significant first. -/
def digitsVal (ds : List Char) : Nat := ds.foldl (fun acc c => 10 * acc + digitVal c) 0

/-- Go `appendInt(b, x, width)`: the decimal form of `x`, zero-padded to `width`
digits, after a minus sign when `x` is negative. -/
def appendInt (x : Int) (width : Nat) : List Char :=
  let ds := Nat.toDigits 10 x.natAbs
  (if x < 0 then ['-'] else []) ++ List.replicate (width - ds.length) '0' ++ ds

/-- Go `t.Format("20060102")`: four-digit year, two-digit month, two-digit day. -/
def Time.Format (t : Time) : String :=
  let ymd := t.Date
  String.mk (appendInt ymd.1 4 ++ appendInt ymd.2.1 2 ++ appendInt ymd.2.2 2)

/-- Go `getnum(s, true)`: exactly two digits. -/
def getnum (s : List Char) : Option (Int × List Char) :=
  match s with
  | c0 :: c1 :: rest =>
    if isDigit c0 && isDigit c1 then some ((digitVal c0 * 10 + digitVal c1 : Nat), rest)
    else none
  | _ => none

/-- Go `time.Parse("20060102", value)`; `none` stands for every parse error. The
layout splits into `2006` (four digits, the year), `01` (two digits, the month,
1..12) and `02` (two digits, the day); text left over is an error, and so is a day
that the month does not have. The result is midnight UTC. -/
def Parse (value : String) : Option Time :=
  match value.data with
  | y0 :: y1 :: y2 :: y3 :: rest =>
    if isDigit y0 && isDigit y1 && isDigit y2 && isDigit y3 then
      let year : Int := (digitsVal [y0, y1, y2, y3] : Nat)
      match getnum rest with
      | none => none
      | some (month, rest) =>
        if month ≤ 0 ∨ 12 < month then none
        else
          match getnum rest with
          | none => none
          | some (day, rest) =>
            if rest ≠ [] then none
            else if day < 1 ∨ day > daysIn month year then none
            else some (Date year month day 0 0)
    else none
  | _ => none

/-! ## Package `fmt`: `Sscanf(str, "d %d", &days)` -/

/-- Go `fmt.isSpace`: the Unicode white-space characters of the table `space`. -/
def isSpace (r : Char) : Bool :=
  let n := r.toNat
  if n ≥ 65536 then false
  else (9 ≤ n && n ≤ 13) || n == 32 || n == 133 || n == 160 || n == 5760
    || (8192 ≤ n && n ≤ 8202) || n == 8232 || n == 8233 || n == 8239 || n == 8287
    || n == 12288

/-- Go `hugeWid`: `Sscanf` reads at most this many runes. -/
def hugeWid : Nat := 2 ^ 30

/-- Go `(*ss).SkipSpace` with `nlIsSpace = false`: skip white space; a newline is the
error `unexpected newline` (`none`); a carriage return directly before a newline is
skipped on its own. Returns the remaining input. -/
def SkipSpace : List Char → Option (List Char)
  | [] => some []
  | r :: rest =>
    if r = '\r' ∧ rest.head? = some '\n' then SkipSpace rest
    else if r = '\n' then none
    else if !isSpace r then some (r :: rest)
    else SkipSpace rest

/-- The loop `for isSpace(inputc) && inputc != '\n'` of Go `(*ss).advance`: drop
white space other than newlines. -/
def dropBlanks : List Char → List Char
  | [] => []
  | r :: rest => if isSpace r && r != '\n' then dropBlanks rest else r :: rest

/-- Go `strconv.ParseInt(tok, 10, 64)` on a token made of an optional sign and at
least one digit: the value, or `none` (`ErrRange`) outside the 64-bit range. -/
def ParseInt (neg : Bool) (ds : List Char) : Option Int :=
  let un := digitsVal ds
  if neg then (if un > 2 ^ 63 then none else some (-(un : Int)))
  else (if un ≥ 2 ^ 63 then none else some (un : Int))

/-- Go `(*ss).scanInt('d', 64)` after its leading `SkipSpace`: an optional sign, then
one or more decimal digits, converted by `ParseInt`. End of input and a character
that is not a digit are errors. What follows the digits is left unread. -/
def scanInt (input : List Char) : Option Int :=
  match input with
  | [] => none
  | c :: rest =>
    let neg := c = '-'
    let body := if c = '+' ∨ c = '-' then rest else c :: rest
    let ds := body.takeWhile isDigit
    if ds = [] then none else ParseInt neg ds

/-- Go `(*ss).doScanf` for the format `d %d` and one `*int` operand: `some days` when
the error is nil, `none` for every error.

* The literal `d` of the format must be the first character of the input.
* The space of the format must match end of input or one white-space character that
  is not a newline; further white space up to a newline is skipped.
* The verb `%d` skips white space (`SkipSpace`, twice: in `doScanf` and in `scanInt`)
  and scans one integer.
* Nothing checks that the input ends after the integer. -/
def doScanf (input : List Char) : Option Int :=
  match input with
  | [] => none
  | c :: input =>
    if c ≠ 'd' then none
    else
      let afterSpace : Option (List Char) :=
        match input with
        | [] => some []
        | s :: rest =>
          if !isSpace s then none
          else if s = '\n' then none
          else some (dropBlanks rest)
      match afterSpace with
      | none => none
      | some input =>
        match SkipSpace input with
        | none => none
        | some input =>
          match SkipSpace input with
          | none => none
          | some input => scanInt input

/-- Go `fmt.Sscanf(str, "d %d", &days)`: `doScanf` on the runes of `str`, of which the
scanner reads at most `hugeWid`. -/
def Sscanf (str : String) : Option Int := doScanf (str.data.take hugeWid)

/-! ## `nextDate` -/

/-- The errors `nextDate` returns. -/
inductive NextDateError where
  /-- `неверный формат даты`: `time.Parse` rejected the date. -/
  | badDate
  /-- `пустое правило повторения`: the rule is empty. -/
  | emptyRule
  /-- `неправильный формат правила d`: `Sscanf` failed on a rule starting with `d`. -/
  | badDRule
  /-- `недопустимый интервал дней`: the number of days is below 1 or above 400. -/
  | badInterval
  /-- `неподдерживаемый формат правила`: the rule is neither `y` nor a `d` rule. -/
  | unsupported
deriving DecidableEq, Repr

deriving instance DecidableEq for Except

/-- The loop `for nextDate.Before(now) { nextDate = step(nextDate) }`, run for at
most `fuel` iterations. -/
def stepWhileBefore (step : Time → Time) (now : Time) : Nat → Time → Time
  | 0, t => t
  | fuel + 1, t => if t.Before now then stepWhileBefore step now fuel (step t) else t

/-- Iterations granted to the loop of `nextDate`: one more than the number of days
from the first candidate to `now`. Every step moves the candidate at least one day
forward, so the loop always leaves through its condition (`stepWhileBefore_exit`). -/
def loopFuel (now t : Time) : Nat := ((now.ns - t.ns) / nsPerDay + 1).toNat

/-- Go `nextDate(now, date, repeat)`. -/
def nextDate (now : Time) (date : String) (rule : String) : Except NextDateError String :=
  match Parse date with
  | none => .error .badDate
  | some taskDate =>
    if rule = "" then .error .emptyRule
    else if rule = "y" then
      let first := taskDate.AddDate 1 0 0
      .ok (stepWhileBefore (fun t => t.AddDate 1 0 0) now (loopFuel now first) first).Format
    else if rule.utf8ByteSize > 1 ∧ rule.data.head? = some 'd' then
      match Sscanf rule with
      | none => .error .badDRule
      | some days =>
        if days < 1 ∨ days > 400 then .error .badInterval
        else
          let first := taskDate.AddDate 0 0 days
          .ok (stepWhileBefore (fun t => t.AddDate 0 0 days) now (loopFuel now first) first).Format
    else .error .unsupported

/-! ## Tasks, storage and the handlers -/

/-- Go `Task`: the JSON body of a request. -/
structure Task where
  ID : String
  Date : String
  Title : String
  Comment : String
  Repeat : String
deriving DecidableEq, Repr

/-- A row of the table `scheduler` (`id INTEGER PRIMARY KEY AUTOINCREMENT`, `date`,
`title`, `comment`, `repeat`). -/
structure Row where
  id : Int
  Date : String
  Title : String
  Comment : String
  Repeat : String
deriving DecidableEq, Repr

/-- The database: the rows of `scheduler` and the last id `AUTOINCREMENT` handed
out. -/
structure DB where
  rows : List Row
  seq : Int
deriving DecidableEq, Repr

/-- The database after `installDatabase` created the table. -/
def DB.empty : DB := { rows := [], seq := 0 }

/-- What a handler writes to the client: the error of an `http.Error` call with its
status, or the body of a success. -/
inductive Response where
  /-- Status 200 with body `{"id": id}`. -/
  | created (id : Int)
  /-- Status 200 with body `{}`. -/
  | done
  /-- Status 400: `Не указан заголовок задачи`. -/
  | noTitle
  /-- Status 400: `Неверный формат даты`. -/
  | badDate
  /-- Status 400: the error of `nextDate`, passed on. -/
  | badRule (e : NextDateError)
  /-- Status 400: `Не указан идентификатор задачи`. -/
  | noId
  /-- Status 404: `Задача не найдена`. -/
  | notFound
  /-- Status 500: `Ошибка при парсинге текущей даты`. -/
  | badClock
  /-- Status 500: `Ошибка при расчете следующей даты`, with the error of `nextDate`. -/
  | nextDateFailed (e : NextDateError)
deriving DecidableEq, Repr

/-- `INSERT INTO scheduler (date, title, comment, repeat) VALUES (?, ?, ?, ?)`
followed by `LastInsertId`. -/
def DB.insert (db : DB) (date title comment rule : String) : Int × DB :=
  let id := db.seq + 1
  (id, { rows := db.rows ++ [{ id := id, Date := date, Title := title,
                               Comment := comment, Repeat := rule }],
         seq := id })

/-- `SELECT ... FROM scheduler WHERE id = ?` with `QueryRow`: the first row with the
key, if any. -/
def DB.find (db : DB) (key : Option Int) : Option Row :=
  match key with
  | none => none
  | some k => db.rows.find? (fun r => r.id = k)

/-- `DELETE FROM scheduler WHERE id = ?`. -/
def DB.delete (db : DB) (key : Option Int) : DB :=
  match key with
  | none => db
  | some k => { db with rows := db.rows.filter (fun r => r.id ≠ k) }

/-- `RowsAffected` of `DELETE FROM scheduler WHERE id = ?`. -/
def DB.rowsAffected (db : DB) (key : Option Int) : Nat :=
  match key with
  | none => 0
  | some k => (db.rows.filter (fun r => r.id = k)).length

/-- `UPDATE scheduler SET date = ? WHERE id = ?`. -/
def DB.setDate (db : DB) (key : Option Int) (date : String) : DB :=
  match key with
  | none => db
  | some k =>
    { db with rows := db.rows.map (fun r => if r.id = k then { r with Date := date } else r) }

/-- `UPDATE scheduler SET date = ?, title = ?, comment = ?, repeat = ? WHERE id = ?`. -/
def DB.update (db : DB) (key : Option Int) (date title comment rule : String) : DB :=
  match key with
  | none => db
  | some k =>
    { db with rows := db.rows.map (fun r =>
        if r.id = k then
          { id := r.id, Date := date, Title := title, Comment := comment, Repeat := rule }
        else r) }

/-- Go `addTaskHandler`, after the JSON body was decoded into `task`. `clock` is the
value of `time.Now()` while the request is handled. -/
def addTaskHandler (clock : Time) (db : DB) (task : Task) : Response × DB :=
  if task.Title = "" then (.noTitle, db)
  else
    let date := if task.Date = "" then clock.Format else task.Date
    match Parse clock.Format with
    | none => (.badClock, db)
    | some now =>
      match Parse date with
      | none => (.badDate, db)
      | some taskDate =>
        let moved : Except NextDateError String :=
          if taskDate.Before now then
            if task.Repeat = "" then .ok clock.Format
            else nextDate now date task.Repeat
          else .ok date
        match moved with
        | .error e => (.badRule e, db)
        | .ok date =>
          let r := db.insert date task.Title task.Comment task.Repeat
          (.created r.1, r.2)

/-- Go `editTaskHandler`, after the JSON body was decoded into `task`. `rowid` is the
comparison `id = ?` of SQLite: the integer key a text parameter stands for, if any. -/
def editTaskHandler (rowid : String → Option Int) (clock : Time) (db : DB) (task : Task) :
    Response × DB :=
  if task.Title = "" then (.noTitle, db)
  else if task.Date ≠ "" ∧ Parse task.Date = none then (.badDate, db)
  else
    let checked : Except NextDateError Unit :=
      if task.Repeat ≠ "" then
        match nextDate clock task.Date task.Repeat with
        | .error e => .error e
        | .ok _ => .ok ()
      else .ok ()
    match checked with
    | .error e => (.badRule e, db)
    | .ok _ =>
      let date := if task.Date = "" then clock.Format else task.Date
      match db.find (rowid task.ID) with
      | none => (.notFound, db)
      | some _ => (.done, db.update (rowid task.ID) date task.Title task.Comment task.Repeat)

/-- Go `taskDoneHandler` for the query parameter `id`. -/
def taskDoneHandler (rowid : String → Option Int) (clock : Time) (db : DB) (id : String) :
    Response × DB :=
  if id = "" then (.noId, db)
  else
    match db.find (rowid id) with
    | none => (.notFound, db)
    | some task =>
      if task.Repeat = "" then (.done, db.delete (rowid id))
      else
        match nextDate clock task.Date task.Repeat with
        | .error e => (.nextDateFailed e, db)
        | .ok next => (.done, db.setDate (rowid id) next)

/-- Go `deleteTaskHandler` for the query parameter `id`. -/
def deleteTaskHandler (rowid : String → Option Int) (db : DB) (id : String) : Response × DB :=
  if id = "" then (.noId, db)
  else if db.rowsAffected (rowid id) = 0 then (.notFound, db.delete (rowid id))
  else (.done, db.delete (rowid id))

/-- The stores reachable from the empty store through create, edit, mark-done and
delete requests, whatever their outcome. -/
inductive Reachable (rowid : String → Option Int) : DB → Prop where
  | empty : Reachable rowid DB.empty
  | create (clock : Time) (task : Task) {db : DB} :
      Reachable rowid db → Reachable rowid (addTaskHandler clock db task).2
  | edit (clock : Time) (task : Task) {db : DB} :
      Reachable rowid db → Reachable rowid (editTaskHandler rowid clock db task).2
  | done (clock : Time) (id : String) {db : DB} :
      Reachable rowid db → Reachable rowid (taskDoneHandler rowid clock db id).2
  | delete (id : String) {db : DB} :
      Reachable rowid db → Reachable rowid (deleteTaskHandler rowid db id).2

/-- Go `s < t` on the characters of two strings: the lexicographic order. (Go compares
bytes; on UTF-8 text that is the order of the code points.) -/
def lessChars : List Char → List Char → Bool
  | _, [] => false
  | [], _ :: _ => true
  | a :: as, b :: bs => if a < b then true else if b < a then false else lessChars as bs

/-- Go `s < t` on strings, as in the check `task.Date < now.Format("20060102")` of
`TestAddTask`. -/
def stringLess (s t : String) : Bool := lessChars s.data t.data

/-! ## Definitions used to state the properties -/

/-- Number of days of a year. -/
def yearLen (year : Int) : Int := if isLeap year = true then 366 else 365

/-- Zero-based day of the year of a calendar day, as `time.Date` computes it. -/
def dayOfYear (y m d : Int) : Int :=
  daysBefore (m - 1) + (if isLeap y = true ∧ m ≥ 3 then 1 else 0) + (d - 1)

/-- A calendar day that exists: month 1..12 and a day the month has. -/
def validDate (y m d : Int) : Prop := 1 ≤ m ∧ m ≤ 12 ∧ 1 ≤ d ∧ d ≤ daysIn m y

/-- Offset of the first day of a month within its year. -/
def monthStart (y m : Int) : Int :=
  daysBefore (m - 1) + (if isLeap y = true ∧ m ≥ 3 then 1 else 0)

/-- Day number of a calendar day whose month is in range (the day may overflow). -/
def dayNumber (y m d : Int) : Int := daysSinceEpoch y + dayOfYear y m d

/-- A step that moves every time at least one day forward. -/
def Advances (step : Time → Time) : Prop := ∀ t : Time, t.ns + nsPerDay ≤ (step t).ns

/-- A run of decimal digits without superfluous leading zero that denotes `n`. -/
def IsDecimal (l : List Char) (n : Nat) : Prop :=
  l ≠ [] ∧ (∀ c ∈ l, isDigit c = true) ∧ digitsVal l = n ∧ n < 10 ^ l.length ∧
    (l.length = 1 ∨ 10 ^ (l.length - 1) ≤ n)

/-- White space that the space of the format skips: any `fmt` space but a newline. -/
def isBlank (c : Char) : Bool := isSpace c && c != '\n'

/-- The rules in which `Sscanf` finds the number `n`: the letter `d`, one or more
blanks, an optional sign, one or more digits whose value fits 64 bits, and then
anything that does not start with a digit. Only the first `hugeWid` characters
count. -/
def IsDRule (rule : String) (n : Int) : Prop :=
  ∃ ws sgn ds rest : List Char,
    rule.data.take hugeWid = 'd' :: (ws ++ (sgn ++ (ds ++ rest))) ∧
    ws ≠ [] ∧ (∀ c ∈ ws, isBlank c = true) ∧
    (sgn = [] ∨ sgn = ['+'] ∨ sgn = ['-']) ∧
    ds ≠ [] ∧ (∀ c ∈ ds, isDigit c = true) ∧
    (∀ c, rest.head? = some c → isDigit c = false) ∧
    n = (if sgn = ['-'] then -(digitsVal ds : Int) else (digitsVal ds : Int)) ∧
    -(2 : Int) ^ 63 ≤ n ∧ n < (2 : Int) ^ 63

/-- What `scanInt` accepts: an optional sign, digits, and a rest that does not start
with a digit. -/
def IsSignedDecimal (l : List Char) (n : Int) : Prop :=
  ∃ sgn ds rest : List Char, l = sgn ++ (ds ++ rest) ∧
    (sgn = [] ∨ sgn = ['+'] ∨ sgn = ['-']) ∧
    ds ≠ [] ∧ (∀ c ∈ ds, isDigit c = true) ∧
    (∀ c, rest.head? = some c → isDigit c = false) ∧
    n = (if sgn = ['-'] then -(digitsVal ds : Int) else (digitsVal ds : Int)) ∧
    -(2 : Int) ^ 63 ≤ n ∧ n < (2 : Int) ^ 63

/-- The step of a rule `nextDate` accepts: one year for `y`, `days` days for a `d` rule
with `1 ≤ days ≤ 400`; `none` for every other rule. -/
def ruleStep (rule : String) : Option (Time → Time) :=
  if rule = "y" then some (fun t => t.AddDate 1 0 0)
  else if rule.utf8ByteSize > 1 ∧ rule.data.head? = some 'd' then
    match Sscanf rule with
    | none => none
    | some days =>
      if days < 1 ∨ days > 400 then none else some (fun t => t.AddDate 0 0 days)
  else none

/-- Month and day after a yearly step: 29 February becomes 1 March, every other day
stays. -/
def yearlyDay (m d : Int) : Int × Int := if m = 2 ∧ d = 29 then (3, 1) else (m, d)

/-- A strict `YYYYMMDD` string: exactly eight decimal digits that name an existing
calendar day (month 1 to 12 and a day that the month has in that year). -/
def IsDateString (s : String) : Prop :=
  ∃ y0 y1 y2 y3 m0 m1 d0 d1 : Char,
    s.data = [y0, y1, y2, y3, m0, m1, d0, d1] ∧
    isDigit y0 = true ∧ isDigit y1 = true ∧ isDigit y2 = true ∧ isDigit y3 = true ∧
    isDigit m0 = true ∧ isDigit m1 = true ∧ isDigit d0 = true ∧ isDigit d1 = true ∧
    validDate (digitsVal [y0, y1, y2, y3]) (digitsVal [m0, m1]) (digitsVal [d0, d1])

/-! ## The calendar: years -/

theorem year_decompose (y : Int) :
    ∃ a b c e : Int, 0 ≤ b ∧ b ≤ 3 ∧ 0 ≤ c ∧ c ≤ 24 ∧ 0 ≤ e ∧ e ≤ 3 ∧
      y = 400 * a + 100 * b + 4 * c + e + 1 :=
  ⟨(y - 1) / 400, (y - 1) % 400 / 100, (y - 1) % 100 / 4, (y - 1) % 4,
    by omega, by omega, by omega, by omega, by omega, by omega, by omega⟩

theorem daysSinceEpoch_spec (a b c e : Int) (hb : 0 ≤ b ∧ b ≤ 3) (hc : 0 ≤ c ∧ c ≤ 24)
    (he : 0 ≤ e ∧ e ≤ 3) :
    daysSinceEpoch (400 * a + 100 * b + 4 * c + e + 1) =
      146097 * a + 36524 * b + 1461 * c + 365 * e := by
  simp only [daysSinceEpoch]
  have h1 : (400 * a + 100 * b + 4 * c + e + 1 - 1) / 400 = a := by omega
  rw [h1]
  have h2 : (400 * a + 100 * b + 4 * c + e + 1 - 1 - 400 * a) / 100 = b := by omega
  rw [h2]
  have h3 : (400 * a + 100 * b + 4 * c + e + 1 - 1 - 400 * a - 100 * b) / 4 = c := by omega
  rw [h3]
  omega

theorem isLeap_spec (a b c e : Int) (hb : 0 ≤ b ∧ b ≤ 3) (hc : 0 ≤ c ∧ c ≤ 24)
    (he : 0 ≤ e ∧ e ≤ 3) :
    isLeap (400 * a + 100 * b + 4 * c + e + 1) = true ↔ (e = 3 ∧ (c < 24 ∨ b = 3)) := by
  simp only [isLeap, Bool.and_eq_true, Bool.or_eq_true, beq_iff_eq, bne_iff_ne, ne_eq]
  omega

theorem absYear_spec (d : Int) :
    ∃ a b c e : Int, 0 ≤ b ∧ b ≤ 3 ∧ 0 ≤ c ∧ c ≤ 24 ∧ 0 ≤ e ∧ e ≤ 3 ∧
      (absYear d).1 = 400 * a + 100 * b + 4 * c + e + 1 ∧
      d = 146097 * a + 36524 * b + 1461 * c + 365 * e + (absYear d).2 ∧
      0 ≤ (absYear d).2 ∧
      ((absYear d).2 < 365 ∨ ((absYear d).2 = 365 ∧ e = 3 ∧ (c < 24 ∨ b = 3))) := by
  simp only [absYear]
  generalize hA : d / 146097 = a
  generalize hd1 : d - 146097 * a = d1
  have h1 : 0 ≤ d1 ∧ d1 < 146097 := by omega
  generalize hB : d1 / 36524 = b0
  have hb0 : b0 = 0 ∨ b0 = 1 ∨ b0 = 2 ∨ b0 = 3 ∨ b0 = 4 := by omega
  generalize hb : b0 - b0 / 4 = b
  generalize hd2 : d1 - 36524 * b = d2
  generalize hC : d2 / 1461 = c
  generalize hd3 : d2 - 1461 * c = d3
  have h3 : 0 ≤ d3 ∧ d3 < 1461 := by omega
  generalize hE : d3 / 365 = e0
  have he0 : e0 = 0 ∨ e0 = 1 ∨ e0 = 2 ∨ e0 = 3 ∨ e0 = 4 := by omega
  generalize he : e0 - e0 / 4 = e
  refine ⟨a, b, c, e, ?_⟩
  rcases hb0 with h | h | h | h | h <;> rcases he0 with h' | h' | h' | h' | h' <;>
    subst h <;> subst h' <;> omega

/-- The day number splits into the first day of its year and the day of the year. -/
theorem absYear_sum (d : Int) : daysSinceEpoch (absYear d).1 + (absYear d).2 = d := by
  obtain ⟨a, b, c, e, hb0, hb1, hc0, hc1, he0, he1, hy, hd, _, _⟩ := absYear_spec d
  rw [hy, daysSinceEpoch_spec a b c e ⟨hb0, hb1⟩ ⟨hc0, hc1⟩ ⟨he0, he1⟩]
  omega

/-- The day of the year lies within the year. -/
theorem absYear_yday (d : Int) : 0 ≤ (absYear d).2 ∧ (absYear d).2 < yearLen (absYear d).1 := by
  obtain ⟨a, b, c, e, hb0, hb1, hc0, hc1, he0, he1, hy, hd, h0, h⟩ := absYear_spec d
  refine ⟨h0, ?_⟩
  have := isLeap_spec a b c e ⟨hb0, hb1⟩ ⟨hc0, hc1⟩ ⟨he0, he1⟩
  rw [hy, yearLen]
  split
  · omega
  · rename_i hl
    rw [this] at hl
    omega

theorem daysSinceEpoch_succ (y : Int) :
    daysSinceEpoch (y + 1) = daysSinceEpoch y + yearLen y := by
  obtain ⟨a, b, c, e, hb0, hb1, hc0, hc1, he0, he1, rfl⟩ := year_decompose y
  have hl := isLeap_spec a b c e ⟨hb0, hb1⟩ ⟨hc0, hc1⟩ ⟨he0, he1⟩
  rw [daysSinceEpoch_spec a b c e ⟨hb0, hb1⟩ ⟨hc0, hc1⟩ ⟨he0, he1⟩, yearLen]
  by_cases h1 : e < 3
  · have : 400 * a + 100 * b + 4 * c + e + 1 + 1 = 400 * a + 100 * b + 4 * c + (e + 1) + 1 := by
      ring
    rw [this, daysSinceEpoch_spec a b c (e + 1) ⟨hb0, hb1⟩ ⟨hc0, hc1⟩ ⟨by omega, by omega⟩]
    have : ¬ (isLeap (400 * a + 100 * b + 4 * c + e + 1) = true) := by rw [hl]; omega
    rw [if_neg this]; omega
  · have he : e = 3 := by omega
    subst he
    by_cases h2 : c < 24
    · have : 400 * a + 100 * b + 4 * c + 3 + 1 + 1 = 400 * a + 100 * b + 4 * (c + 1) + 0 + 1 := by
        ring
      rw [this, daysSinceEpoch_spec a b (c + 1) 0 ⟨hb0, hb1⟩ ⟨by omega, by omega⟩ ⟨by omega, by omega⟩]
      have : isLeap (400 * a + 100 * b + 4 * c + 3 + 1) = true := by rw [hl]; omega
      rw [if_pos this]; omega
    · have hc : c = 24 := by omega
      subst hc
      by_cases h3 : b < 3
      · have : 400 * a + 100 * b + 4 * 24 + 3 + 1 + 1 = 400 * a + 100 * (b + 1) + 4 * 0 + 0 + 1 := by
          ring
        rw [this, daysSinceEpoch_spec a (b + 1) 0 0 ⟨by omega, by omega⟩ ⟨by omega, by omega⟩
          ⟨by omega, by omega⟩]
        have : ¬ (isLeap (400 * a + 100 * b + 4 * 24 + 3 + 1) = true) := by rw [hl]; omega
        rw [if_neg this]; omega
      · have hb : b = 3 := by omega
        subst hb
        have : 400 * a + 100 * 3 + 4 * 24 + 3 + 1 + 1 = 400 * (a + 1) + 100 * 0 + 4 * 0 + 0 + 1 := by
          ring
        rw [this, daysSinceEpoch_spec (a + 1) 0 0 0 ⟨by omega, by omega⟩ ⟨by omega, by omega⟩
          ⟨by omega, by omega⟩]
        have : isLeap (400 * a + 100 * 3 + 4 * 24 + 3 + 1) = true := by rw [hl]; omega
        rw [if_pos this]; omega

theorem yearLen_ge (y : Int) : 365 ≤ yearLen y := by
  unfold yearLen; split <;> omega

theorem yearLen_le (y : Int) : yearLen y ≤ 366 := by
  unfold yearLen; split <;> omega

/-- The first days of the years increase with the year. -/
theorem daysSinceEpoch_add (y : Int) (k : Nat) :
    daysSinceEpoch y + 365 * k ≤ daysSinceEpoch (y + k) := by
  induction k with
  | zero => simp
  | succ k ih =>
    have h := daysSinceEpoch_succ (y + k)
    have h2 := yearLen_ge (y + k)
    have : y + ((k + 1 : Nat) : Int) = y + k + 1 := by push_cast; ring
    rw [this, h]
    push_cast
    omega

theorem daysSinceEpoch_lt {y z : Int} (h : y < z) :
    daysSinceEpoch y + 365 ≤ daysSinceEpoch z := by
  obtain ⟨k, hk⟩ : ∃ k : Nat, z = y + 1 + k := ⟨(z - y - 1).toNat, by omega⟩
  have h1 := daysSinceEpoch_add (y + 1) k
  have h2 := daysSinceEpoch_succ y
  have h3 := yearLen_ge y
  rw [hk]
  omega

/-- A day number determines its year and day of the year. -/
theorem absYear_unique (y yd : Int) (h0 : 0 ≤ yd) (h1 : yd < yearLen y) :
    absYear (daysSinceEpoch y + yd) = (y, yd) := by
  have hs := absYear_sum (daysSinceEpoch y + yd)
  have hy := absYear_yday (daysSinceEpoch y + yd)
  generalize absYear (daysSinceEpoch y + yd) = p at hs hy
  obtain ⟨y', yd'⟩ := p
  simp only at hs hy
  have hyy : y' = y := by
    rcases lt_trichotomy y' y with h | h | h
    · have := daysSinceEpoch_lt h
      have := daysSinceEpoch_succ y'
      have := yearLen_le y'
      rcases Int.lt_iff_add_one_le.mp h with h'
      rcases eq_or_lt_of_le h' with h'' | h''
      · subst h''; omega
      · have := daysSinceEpoch_lt h''; omega
    · exact h
    · have := daysSinceEpoch_succ y
      have := yearLen_le y
      rcases Int.lt_iff_add_one_le.mp h with h'
      rcases eq_or_lt_of_le h' with h'' | h''
      · subst h''; omega
      · have := daysSinceEpoch_lt h''; omega
  subst hyy
  have : yd' = yd := by omega
  subst this
  rfl

/-! ## The calendar: months -/

theorem month_cases {m : Int} (h1 : 1 ≤ m) (h2 : m ≤ 12) :
    m = 1 ∨ m = 2 ∨ m = 3 ∨ m = 4 ∨ m = 5 ∨ m = 6 ∨ m = 7 ∨ m = 8 ∨ m = 9 ∨ m = 10 ∨
      m = 11 ∨ m = 12 := by omega

theorem daysBefore_vals :
    daysBefore 0 = 0 ∧ daysBefore 1 = 31 ∧ daysBefore 2 = 59 ∧ daysBefore 3 = 90 ∧
    daysBefore 4 = 120 ∧ daysBefore 5 = 151 ∧ daysBefore 6 = 181 ∧ daysBefore 7 = 212 ∧
    daysBefore 8 = 243 ∧ daysBefore 9 = 273 ∧ daysBefore 10 = 304 ∧ daysBefore 11 = 334 ∧
    daysBefore 12 = 365 := by decide

/-- The table of month starts and month lengths, month by month. -/
theorem month_table (y m : Int) (h1 : 1 ≤ m) (h2 : m ≤ 12) :
    (m = 1 ∧ daysBefore (m - 1) = 0 ∧ daysBefore m = 31 ∧ daysIn m y = 31) ∨
    (m = 2 ∧ daysBefore (m - 1) = 31 ∧ daysBefore m = 59 ∧
      daysIn m y = (if isLeap y = true then 29 else 28)) ∨
    (m = 3 ∧ daysBefore (m - 1) = 59 ∧ daysBefore m = 90 ∧ daysIn m y = 31) ∨
    (m = 4 ∧ daysBefore (m - 1) = 90 ∧ daysBefore m = 120 ∧ daysIn m y = 30) ∨
    (m = 5 ∧ daysBefore (m - 1) = 120 ∧ daysBefore m = 151 ∧ daysIn m y = 31) ∨
    (m = 6 ∧ daysBefore (m - 1) = 151 ∧ daysBefore m = 181 ∧ daysIn m y = 30) ∨
    (m = 7 ∧ daysBefore (m - 1) = 181 ∧ daysBefore m = 212 ∧ daysIn m y = 31) ∨
    (m = 8 ∧ daysBefore (m - 1) = 212 ∧ daysBefore m = 243 ∧ daysIn m y = 31) ∨
    (m = 9 ∧ daysBefore (m - 1) = 243 ∧ daysBefore m = 273 ∧ daysIn m y = 30) ∨
    (m = 10 ∧ daysBefore (m - 1) = 273 ∧ daysBefore m = 304 ∧ daysIn m y = 31) ∨
    (m = 11 ∧ daysBefore (m - 1) = 304 ∧ daysBefore m = 334 ∧ daysIn m y = 30) ∨
    (m = 12 ∧ daysBefore (m - 1) = 334 ∧ daysBefore m = 365 ∧ daysIn m y = 31) := by
  obtain ⟨v0, v1, v2, v3, v4, v5, v6, v7, v8, v9, v10, v11, v12⟩ := daysBefore_vals
  rcases month_cases h1 h2 with h | h | h | h | h | h | h | h | h | h | h | h <;> subst h <;>
    simp only [daysIn, v0, v1, v2, v3, v4, v5, v6, v7, v8, v9, v10, v11, v12] <;>
    norm_num [v0, v1, v2, v3, v4, v5, v6, v7, v8, v9, v10, v11, v12]

theorem monthDay_spec (y yd : Int) (h0 : 0 ≤ yd) (h1 : yd < yearLen y) :
    validDate y (monthDay y yd).1 (monthDay y yd).2 ∧
      dayOfYear y (monthDay y yd).1 (monthDay y yd).2 = yd := by
  obtain ⟨v0, v1, v2, v3, v4, v5, v6, v7, v8, v9, v10, v11, v12⟩ := daysBefore_vals
  unfold yearLen at h1
  unfold monthDay validDate dayOfYear
  by_cases hl : isLeap y = true
  · simp only [hl, if_true, true_and] at h1 ⊢
    by_cases h59 : yd = 59
    · subst h59
      norm_num [daysIn, hl, v1]
    · rw [if_neg h59]
      by_cases hgt : yd > 59
      · rw [if_pos hgt]
        have hk : (yd - 1) / 31 = 1 ∨ (yd - 1) / 31 = 2 ∨ (yd - 1) / 31 = 3 ∨
            (yd - 1) / 31 = 4 ∨ (yd - 1) / 31 = 5 ∨ (yd - 1) / 31 = 6 ∨ (yd - 1) / 31 = 7 ∨
            (yd - 1) / 31 = 8 ∨ (yd - 1) / 31 = 9 ∨ (yd - 1) / 31 = 10 ∨
            (yd - 1) / 31 = 11 := by omega
        rcases hk with hk | hk | hk | hk | hk | hk | hk | hk | hk | hk | hk <;>
          rw [hk] <;> norm_num [v0, v1, v2, v3, v4, v5, v6, v7, v8, v9, v10, v11, v12] <;>
          split <;>
          norm_num [daysIn, hl, v0, v1, v2, v3, v4, v5, v6, v7, v8, v9, v10, v11, v12] <;>
          omega
      · rw [if_neg hgt]
        have hk : yd / 31 = 0 ∨ yd / 31 = 1 := by omega
        rcases hk with hk | hk <;>
          rw [hk] <;> norm_num [v0, v1, v2, v3, v4, v5, v6, v7, v8, v9, v10, v11, v12] <;>
          split <;>
          norm_num [daysIn, hl, v0, v1, v2, v3, v4, v5, v6, v7, v8, v9, v10, v11, v12] <;>
          omega
  · simp only [hl, Bool.false_eq_true, if_false, false_and] at h1 ⊢
    have hk : yd / 31 = 0 ∨ yd / 31 = 1 ∨ yd / 31 = 2 ∨ yd / 31 = 3 ∨
            yd / 31 = 4 ∨ yd / 31 = 5 ∨ yd / 31 = 6 ∨ yd / 31 = 7 ∨
            yd / 31 = 8 ∨ yd / 31 = 9 ∨ yd / 31 = 10 ∨
            yd / 31 = 11 := by omega
    rcases hk with hk | hk | hk | hk | hk | hk | hk | hk | hk | hk | hk | hk <;>
          rw [hk] <;> norm_num [v0, v1, v2, v3, v4, v5, v6, v7, v8, v9, v10, v11, v12] <;>
          split <;>
          norm_num [daysIn, hl, v0, v1, v2, v3, v4, v5, v6, v7, v8, v9, v10, v11, v12] <;>
          omega

theorem dayOfYear_eq (y m d : Int) : dayOfYear y m d = monthStart y m + (d - 1) := rfl

theorem daysIn_bounds (y m : Int) (h1 : 1 ≤ m) (h2 : m ≤ 12) :
    28 ≤ daysIn m y ∧ daysIn m y ≤ 31 := by
  rcases month_table y m h1 h2 with h | h | h | h | h | h | h | h | h | h | h | h <;>
    obtain ⟨-, -, -, hi⟩ := h <;> rw [hi] <;> (try split) <;> omega

theorem monthStart_one (y : Int) : monthStart y 1 = 0 := by
  have := daysBefore_vals.1
  simp [monthStart, this]

theorem monthStart_succ (y m : Int) (h1 : 1 ≤ m) (h2 : m ≤ 11) :
    monthStart y (m + 1) = monthStart y m + daysIn m y := by
  unfold monthStart
  rw [add_sub_cancel_right]
  rcases month_table y m h1 (by omega) with h | h | h | h | h | h | h | h | h | h | h | h <;>
    obtain ⟨rfl, hb, hb', hi⟩ := h <;> rw [hb, hb', hi] <;>
    by_cases hl : isLeap y = true <;> simp [hl]

theorem monthStart_twelve (y : Int) : monthStart y 12 + daysIn 12 y = yearLen y := by
  unfold monthStart yearLen
  rcases month_table y 12 (by omega) (by omega) with h | h | h | h | h | h | h | h | h | h | h | h <;>
    obtain ⟨h12, hb, hb', hi⟩ := h <;> (try omega)
  rw [hb, hi]
  by_cases hl : isLeap y = true <;> simp [hl]

theorem monthStart_mono (y m : Int) (k : Nat) (h1 : 1 ≤ m) (h2 : m + k + 1 ≤ 12) :
    monthStart y m + daysIn m y ≤ monthStart y (m + k + 1) := by
  induction k with
  | zero =>
    have := monthStart_succ y m h1 (by omega)
    simp only [Nat.cast_zero, add_zero] at h2 ⊢
    omega
  | succ k ih =>
    have h3 := ih (by push_cast at h2 ⊢; omega)
    have h4 := monthStart_succ y (m + k + 1) (by omega) (by push_cast at h2 ⊢; omega)
    have h5 := daysIn_bounds y (m + k + 1) (by omega) (by push_cast at h2 ⊢; omega)
    have : m + ((k + 1 : Nat) : Int) + 1 = m + k + 1 + 1 := by push_cast; ring
    rw [this, h4]
    omega

theorem monthStart_lt (y m m' : Int) (h1 : 1 ≤ m) (h : m < m') (h2 : m' ≤ 12) :
    monthStart y m + daysIn m y ≤ monthStart y m' := by
  obtain ⟨k, hk⟩ : ∃ k : Nat, m' = m + k + 1 := ⟨(m' - m - 1).toNat, by omega⟩
  subst hk
  exact monthStart_mono y m k h1 h2

theorem monthStart_nonneg (y m : Int) (h1 : 1 ≤ m) (h2 : m ≤ 12) : 0 ≤ monthStart y m := by
  rcases eq_or_lt_of_le h1 with h | h
  · rw [← h, monthStart_one]
  · have := monthStart_lt y 1 m (by omega) h h2
    have := monthStart_one y
    have := daysIn_bounds y 1 (by omega) (by omega)
    omega

theorem monthStart_le (y m : Int) (h1 : 1 ≤ m) (h2 : m ≤ 12) :
    monthStart y m + daysIn m y ≤ yearLen y := by
  rcases eq_or_lt_of_le h2 with h | h
  · rw [h, monthStart_twelve]
  · have := monthStart_lt y m 12 h1 h (by omega)
    have := monthStart_twelve y
    have := daysIn_bounds y 12 (by omega) (by omega)
    omega

/-- The day of the year of an existing day lies within the year. -/
theorem dayOfYear_range (y m d : Int) (h : validDate y m d) :
    0 ≤ dayOfYear y m d ∧ dayOfYear y m d < yearLen y := by
  obtain ⟨h1, h2, h3, h4⟩ := h
  have := monthStart_nonneg y m h1 h2
  have := monthStart_le y m h1 h2
  rw [dayOfYear_eq]
  omega

/-- Existing days of one year with the same day of the year are equal. -/
theorem dayOfYear_inj (y m d m' d' : Int) (h : validDate y m d) (h' : validDate y m' d')
    (e : dayOfYear y m d = dayOfYear y m' d') : m = m' ∧ d = d' := by
  obtain ⟨h1, h2, h3, h4⟩ := h
  obtain ⟨h1', h2', h3', h4'⟩ := h'
  rw [dayOfYear_eq, dayOfYear_eq] at e
  rcases lt_trichotomy m m' with hlt | heq | hgt
  · have := monthStart_lt y m m' h1 hlt h2'
    omega
  · subst heq
    exact ⟨rfl, by omega⟩
  · have := monthStart_lt y m' m h1' hgt h2
    omega

/-- Go `absDate` inverts the day-of-year computation of `time.Date`. -/
theorem monthDay_unique (y m d : Int) (h : validDate y m d) :
    monthDay y (dayOfYear y m d) = (m, d) := by
  have hr := dayOfYear_range y m d h
  have hs := monthDay_spec y (dayOfYear y m d) hr.1 hr.2
  have := dayOfYear_inj y _ _ m d hs.1 h hs.2
  exact Prod.ext this.1 this.2

/-! ## `time.Date`, `Time.Date` and `Time.AddDate` -/

theorem Date_ns (y m d c off : Int) (h1 : 1 ≤ m) (h2 : m ≤ 12) :
    Date y m d c off = { ns := dayNumber y m d * nsPerDay + c - off * 1000000000, offset := off } := by
  have e1 : (m - 1) / 12 = 0 := by omega
  have e2 : (m - 1) % 12 = m - 1 := by omega
  have e3 : (m - 1 + 1 ≥ 3) = (m ≥ 3) := by simp
  simp only [Date, e1, e2, e3, add_zero, dayNumber, dayOfYear]
  congr 2
  ring

theorem dayNumber_add (y m d n : Int) : dayNumber y m (d + n) = dayNumber y m d + n := by
  simp only [dayNumber, dayOfYear]; ring

theorem wall_Date (y m d c off : Int) (h1 : 1 ≤ m) (h2 : m ≤ 12) :
    (Date y m d c off).wall = dayNumber y m d * nsPerDay + c := by
  rw [Date_ns y m d c off h1 h2]; simp only [Time.wall]; ring

theorem div_nsPerDay (D c : Int) (h0 : 0 ≤ c) (h1 : c < nsPerDay) :
    (D * nsPerDay + c) / nsPerDay = D ∧ (D * nsPerDay + c) % nsPerDay = c := by
  unfold nsPerDay at *
  constructor <;> omega

/-- `Time.Date` reads back the calendar day `time.Date` was given, when that day
exists. -/
theorem Date_Date (y m d c off : Int) (h : validDate y m d) (h0 : 0 ≤ c)
    (h1 : c < nsPerDay) :
    (Date y m d c off).Date = (y, m, d) ∧ (Date y m d c off).clock = c ∧
      (Date y m d c off).offset = off := by
  have hw := wall_Date y m d c off h.1 h.2.1
  have hd := div_nsPerDay (dayNumber y m d) c h0 h1
  have hr := dayOfYear_range y m d h
  refine ⟨?_, ?_, ?_⟩
  · have e : (Date y m d c off).absDay = daysSinceEpoch y + dayOfYear y m d := by
      rw [Time.absDay, hw, hd.1, dayNumber]
    simp only [Time.Date, e, absYear_unique _ _ hr.1 hr.2, monthDay_unique y m d h]
  · simp only [Time.clock, hw, hd.2]
  · rw [Date_ns y m d c off h.1 h.2.1]

/-- The calendar day of any time exists. -/
theorem Date_valid (t : Time) : validDate t.Date.1 t.Date.2.1 t.Date.2.2 := by
  have hy := absYear_yday t.absDay
  exact (monthDay_spec _ _ hy.1 hy.2).1

theorem dayNumber_Date (t : Time) :
    dayNumber t.Date.1 t.Date.2.1 t.Date.2.2 = t.absDay := by
  have hy := absYear_yday t.absDay
  have := (monthDay_spec _ _ hy.1 hy.2).2
  simp only [dayNumber, Time.Date, this, absYear_sum]

theorem clock_range (t : Time) : 0 ≤ t.clock ∧ t.clock < nsPerDay := by
  unfold Time.clock nsPerDay; constructor <;> omega

theorem wall_split (t : Time) : t.absDay * nsPerDay + t.clock = t.wall := by
  unfold Time.absDay Time.clock nsPerDay; omega

/-- `AddDate(0, 0, n)` moves the instant by `n` days and keeps the location. -/
theorem AddDate_days (t : Time) (n : Int) :
    t.AddDate 0 0 n = { ns := t.ns + n * nsPerDay, offset := t.offset } := by
  have hv := Date_valid t
  have hn := dayNumber_Date t
  have hw := wall_split t
  simp only [Time.AddDate, add_zero]
  rw [Date_ns _ _ _ _ _ hv.1 hv.2.1, dayNumber_add, hn]
  simp only [Time.wall] at hw
  congr 1
  have : (t.absDay + n) * nsPerDay = t.absDay * nsPerDay + n * nsPerDay := by ring
  omega

/-- The adjustment for a leap day: the difference of the same month start in
consecutive years. -/
theorem dayNumber_succ_year (y m d : Int) :
    dayNumber (y + 1) m d = dayNumber y m d +
      (if m ≥ 3 then yearLen (y + 1) else yearLen y) := by
  simp only [dayNumber, dayOfYear, daysSinceEpoch_succ, yearLen]
  by_cases h3 : m ≥ 3 <;> by_cases hl : isLeap y = true <;>
    by_cases hl' : isLeap (y + 1) = true <;> simp [h3, hl, hl'] <;> omega

/-- `AddDate(1, 0, 0)` moves the instant by 365 or 366 days and keeps the location. -/
theorem AddDate_year (t : Time) :
    ∃ n : Int, 365 ≤ n ∧ n ≤ 366 ∧
      t.AddDate 1 0 0 = { ns := t.ns + n * nsPerDay, offset := t.offset } := by
  have hv := Date_valid t
  have hn := dayNumber_Date t
  have hw := wall_split t
  refine ⟨if t.Date.2.1 ≥ 3 then yearLen (t.Date.1 + 1) else yearLen t.Date.1, ?_, ?_, ?_⟩
  · split <;> exact yearLen_ge _
  · split <;> exact yearLen_le _
  · simp only [Time.AddDate, add_zero]
    rw [Date_ns _ _ _ _ _ hv.1 hv.2.1, dayNumber_succ_year, hn]
    simp only [Time.wall] at hw
    congr 1
    generalize (if t.Date.2.1 ≥ 3 then yearLen (t.Date.1 + 1) else yearLen t.Date.1) = n
    have : (t.absDay + n) * nsPerDay = t.absDay * nsPerDay + n * nsPerDay := by ring
    omega

/-! ## The stepping loop -/

theorem advances_days (n : Int) (h : 1 ≤ n) : Advances (fun t => t.AddDate 0 0 n) := by
  intro t
  simp only [AddDate_days]
  unfold nsPerDay
  nlinarith

theorem advances_year : Advances (fun t => t.AddDate 1 0 0) := by
  intro t
  obtain ⟨n, h1, _, h⟩ := AddDate_year t
  simp only [h]
  unfold nsPerDay
  nlinarith

theorem Before_iff (t u : Time) : t.Before u = true ↔ t.ns < u.ns := by
  simp [Time.Before]

/-- The loop leaves through its condition, after the least number of steps that
brings the candidate to `now` or later. -/
theorem stepWhileBefore_spec (step : Time → Time) (hs : Advances step) (now : Time) :
    ∀ (fuel : Nat) (t : Time), loopFuel now t ≤ fuel →
      ∃ k : Nat, stepWhileBefore step now fuel t = step^[k] t ∧
        (step^[k] t).Before now = false ∧ ∀ j, j < k → (step^[j] t).Before now = true := by
  intro fuel
  induction fuel with
  | zero =>
    intro t h
    refine ⟨0, rfl, ?_, fun j hj => absurd hj (Nat.not_lt_zero j)⟩
    simp only [Function.iterate_zero, id_eq, Time.Before, decide_eq_false_iff_not]
    unfold loopFuel nsPerDay at h
    omega
  | succ fuel ih =>
    intro t h
    by_cases hb : t.Before now = true
    · have hlt := (Before_iff t now).mp hb
      have hadv := hs t
      have hf : loopFuel now (step t) ≤ fuel := by
        unfold loopFuel nsPerDay at h ⊢
        unfold nsPerDay at hadv
        omega
      obtain ⟨k, hk, hnb, hmin⟩ := ih (step t) hf
      refine ⟨k + 1, ?_, ?_, ?_⟩
      · simp only [stepWhileBefore, hb, if_true, hk, Function.iterate_succ_apply]
      · simpa only [Function.iterate_succ_apply] using hnb
      · intro j hj
        cases j with
        | zero => simpa using hb
        | succ j =>
          simpa only [Function.iterate_succ_apply] using hmin j (by omega)
    · refine ⟨0, ?_, ?_, fun j hj => absurd hj (Nat.not_lt_zero j)⟩
      · simp only [stepWhileBefore, hb, Function.iterate_zero, id_eq]
        simp
      · simpa using hb

/-- The loop of `nextDate` never runs out of iterations. -/
theorem stepWhileBefore_exit (step : Time → Time) (hs : Advances step) (now t : Time) :
    (stepWhileBefore step now (loopFuel now t) t).Before now = false := by
  obtain ⟨k, hk, hnb, _⟩ := stepWhileBefore_spec step hs now (loopFuel now t) t le_rfl
  rw [hk]; exact hnb

/-- More iterations than `loopFuel` grants change nothing. -/
theorem stepWhileBefore_fuel (step : Time → Time) (hs : Advances step) (now t : Time)
    (fuel : Nat) (h : loopFuel now t ≤ fuel) :
    stepWhileBefore step now fuel t = stepWhileBefore step now (loopFuel now t) t := by
  obtain ⟨k, hk, hnb, hmin⟩ := stepWhileBefore_spec step hs now fuel t h
  obtain ⟨k', hk', hnb', hmin'⟩ := stepWhileBefore_spec step hs now (loopFuel now t) t le_rfl
  have : k = k' := by
    rcases lt_trichotomy k k' with h | h | h
    · have := hmin' k h; rw [hnb] at this; cases this
    · exact h
    · have := hmin k' h; rw [hnb'] at this; cases this
  rw [hk, hk', this]

/-! ## Decimal digits -/

theorem digitChar_spec (k : Nat) (h : k < 10) :
    isDigit (Nat.digitChar k) = true ∧ digitVal (Nat.digitChar k) = k := by
  interval_cases k <;> decide

theorem digitsVal_append (l : List Char) (c : Char) :
    digitsVal (l ++ [c]) = 10 * digitsVal l + digitVal c := by
  simp [digitsVal, List.foldl_append]

theorem digitsVal_nil : digitsVal [] = 0 := rfl

theorem toDigitsCore_spec : ∀ (fuel n : Nat) (ds : List Char), n < fuel →
    ∃ l, Nat.toDigitsCore 10 fuel n ds = l ++ ds ∧ IsDecimal l n := by
  intro fuel
  induction fuel with
  | zero => intro n ds h; omega
  | succ fuel ih =>
    intro n ds h
    have hd := digitChar_spec (n % 10) (Nat.mod_lt _ (by norm_num))
    by_cases h0 : n / 10 = 0
    · refine ⟨[Nat.digitChar (n % 10)], ?_, ?_⟩
      · simp [Nat.toDigitsCore, h0]
      · have hn : n % 10 = n := by omega
        refine ⟨by simp, ?_, ?_, ?_, ?_⟩
        · intro c hc
          simp only [List.mem_singleton] at hc
          rw [hc]; exact hd.1
        · simp only [digitsVal, List.foldl, hd.2]; omega
        · simp only [List.length_singleton, pow_one]; omega
        · left; rfl
    · obtain ⟨l, hl, hne, hdig, hval, hub, hlb⟩ := ih (n / 10) (Nat.digitChar (n % 10) :: ds)
        (by omega)
      refine ⟨l ++ [Nat.digitChar (n % 10)], ?_, ?_⟩
      · simp [Nat.toDigitsCore, h0, hl]
      · refine ⟨by simp, ?_, ?_, ?_, ?_⟩
        · intro c hc
          rcases List.mem_append.mp hc with hc | hc
          · exact hdig c hc
          · simp only [List.mem_singleton] at hc
            rw [hc]; exact hd.1
        · rw [digitsVal_append, hval, hd.2]; omega
        · simp only [List.length_append, List.length_singleton, pow_succ]; omega
        · right
          have hlen : 0 < l.length := List.length_pos.mpr hne
          have hlb' : 10 ^ (l.length - 1) ≤ n / 10 := by
            rcases hlb with h1 | h1
            · rw [h1]; simp only [Nat.sub_self, pow_zero]; omega
            · exact h1
          simp only [List.length_append, List.length_singleton, Nat.add_sub_cancel]
          have e : l.length = (l.length - 1) + 1 := by omega
          rw [e, pow_succ]; omega

theorem toDigits_spec (n : Nat) : IsDecimal (Nat.toDigits 10 n) n := by
  obtain ⟨l, hl, h⟩ := toDigitsCore_spec (n + 1) n [] (by omega)
  rw [Nat.toDigits, hl, List.append_nil]
  exact h

/-- A decimal numeral below `10 ^ e` has at most `e` digits. -/
theorem IsDecimal.length_le {l : List Char} {n e : Nat} (h : IsDecimal l n) (he : 0 < e)
    (hn : n < 10 ^ e) : l.length ≤ e := by
  obtain ⟨hne, -, -, -, hlb⟩ := h
  by_contra hc
  have hlen : e ≤ l.length - 1 := by omega
  rcases hlb with h1 | h1
  · omega
  · have := Nat.pow_le_pow_right (by norm_num : 0 < 10) hlen
    omega

/-! ## `Sscanf` with the format `d %d` -/

theorem isDigit_not_space {c : Char} (h : isDigit c = true) :
    isSpace c = false ∧ c ≠ '+' ∧ c ≠ '-' ∧ c ≠ '\n' ∧ c ≠ '\r' := by
  have h1 : 48 ≤ c.toNat ∧ c.toNat ≤ 57 := by
    simp only [isDigit, Bool.and_eq_true, decide_eq_true_eq] at h
    exact ⟨h.1, h.2⟩
  refine ⟨?_, ?_, ?_, ?_, ?_⟩
  · simp only [isSpace]
    split
    · rfl
    · simp only [Bool.or_eq_false_iff, Bool.and_eq_false_iff, decide_eq_false_iff_not,
        beq_eq_false_iff_ne, ne_eq]
      omega
  all_goals (rintro rfl; revert h1; decide)

theorem dropBlanks_spec (l : List Char) :
    ∃ ws, l = ws ++ dropBlanks l ∧ (∀ c ∈ ws, isBlank c = true) ∧
      (∀ c, (dropBlanks l).head? = some c → isBlank c = false) := by
  induction l with
  | nil => exact ⟨[], rfl, by simp, by simp [dropBlanks]⟩
  | cons a l ih =>
    by_cases h : isBlank a = true
    · obtain ⟨ws, h1, h2, h3⟩ := ih
      have e : dropBlanks (a :: l) = dropBlanks l := by
        simp only [isBlank] at h
        simp only [dropBlanks, h, if_true]
      refine ⟨a :: ws, ?_, ?_, ?_⟩
      · rw [e, List.cons_append, ← h1]
      · intro c hc
        rcases List.mem_cons.mp hc with hc | hc
        · rw [hc]; exact h
        · exact h2 c hc
      · rw [e]; exact h3
    · have e : dropBlanks (a :: l) = a :: l := by
        simp only [isBlank] at h
        simp only [dropBlanks, h]
        simp
      refine ⟨[], by rw [e]; rfl, by simp, ?_⟩
      rw [e]
      intro c hc
      simp only [List.head?_cons, Option.some.injEq] at hc
      rw [← hc]; simpa using h

theorem dropBlanks_append (ws r : List Char) (h1 : ∀ c ∈ ws, isBlank c = true)
    (h2 : ∀ c, r.head? = some c → isBlank c = false) : dropBlanks (ws ++ r) = r := by
  induction ws with
  | nil =>
    cases r with
    | nil => rfl
    | cons a r =>
      have := h2 a rfl
      simp only [isBlank] at this
      simp [dropBlanks, this]
  | cons a ws ih =>
    have ha := h1 a (List.mem_cons_self _ _)
    simp only [isBlank] at ha
    simp only [List.cons_append, dropBlanks, ha, if_true]
    exact ih (fun c hc => h1 c (List.mem_cons_of_mem _ hc))

theorem SkipSpace_not_space (c : Char) (l : List Char) (h : isSpace c = false) :
    SkipSpace (c :: l) = some (c :: l) := by
  have h1 : c ≠ '\r' := by rintro rfl; revert h; decide
  have h2 : c ≠ '\n' := by rintro rfl; revert h; decide
  simp [SkipSpace, h1, h2, h]

theorem SkipSpace_newline (l : List Char) : SkipSpace ('\n' :: l) = none := by
  simp [SkipSpace]

theorem takeWhile_append_stop {p : Char → Bool} (ds rest : List Char)
    (h1 : ∀ c ∈ ds, p c = true) (h2 : ∀ c, rest.head? = some c → p c = false) :
    (ds ++ rest).takeWhile p = ds := by
  induction ds with
  | nil =>
    cases rest with
    | nil => rfl
    | cons a r => simp [List.takeWhile, h2 a rfl]
  | cons a ds ih =>
    have e := ih (fun c hc => h1 c (List.mem_cons_of_mem _ hc))
    rw [List.cons_append, List.takeWhile_cons, h1 a (List.mem_cons_self _ _), if_pos rfl, e]

theorem takeWhile_split (p : Char → Bool) (l : List Char) :
    ∃ rest, l = l.takeWhile p ++ rest ∧ (∀ c ∈ l.takeWhile p, p c = true) ∧
      (∀ c, rest.head? = some c → p c = false) := by
  refine ⟨l.dropWhile p, (List.takeWhile_append_dropWhile p l).symm, ?_, ?_⟩
  · intro c hc; exact List.mem_takeWhile_imp hc
  · intro c hc
    cases hd : l.dropWhile p with
    | nil => rw [hd] at hc; simp at hc
    | cons a r =>
      rw [hd] at hc
      simp only [List.head?_cons, Option.some.injEq] at hc
      have := List.head_dropWhile_not p l (by rw [hd]; simp)
      simp only [hd, List.head_cons] at this
      rw [← hc]; simpa using this

theorem ParseInt_spec (neg : Bool) (ds : List Char) (n : Int) :
    ParseInt neg ds = some n ↔
      (n = (if neg = true then -(digitsVal ds : Int) else (digitsVal ds : Int)) ∧
        -(2 : Int) ^ 63 ≤ n ∧ n < (2 : Int) ^ 63) := by
  unfold ParseInt
  cases neg
  · simp only [Bool.false_eq_true, if_false]
    split
    · constructor
      · intro h; cases h
      · rintro ⟨rfl, -, h⟩
        exfalso
        have : (digitsVal ds : Int) < 2 ^ 63 := h
        rename_i hge
        have : (2 ^ 63 : Nat) ≤ digitsVal ds := hge
        omega
    · rename_i hlt
      constructor
      · intro h
        simp only [Option.some.injEq] at h
        subst h
        refine ⟨rfl, ?_, ?_⟩ <;> omega
      · rintro ⟨rfl, -, -⟩; rfl
  · simp only [if_true]
    split
    · constructor
      · intro h; cases h
      · rintro ⟨rfl, h, -⟩
        exfalso
        rename_i hgt
        have : digitsVal ds > (2 ^ 63 : Nat) := hgt
        omega
    · rename_i hle
      constructor
      · intro h
        simp only [Option.some.injEq] at h
        subst h
        refine ⟨rfl, ?_, ?_⟩ <;> omega
      · rintro ⟨rfl, -, -⟩; rfl

theorem IsSignedDecimal.head {l : List Char} {n : Int} (h : IsSignedDecimal l n) :
    ∃ c r, l = c :: r ∧ isSpace c = false := by
  obtain ⟨sgn, ds, rest, rfl, hs, hne, hd, -⟩ := h
  obtain ⟨a, ds', rfl⟩ := List.exists_cons_of_ne_nil hne
  have ha := isDigit_not_space (hd a (List.mem_cons_self _ _))
  rcases hs with rfl | rfl | rfl
  · exact ⟨a, ds' ++ rest, rfl, ha.1⟩
  · exact ⟨'+', a :: ds' ++ rest, rfl, by decide⟩
  · exact ⟨'-', a :: ds' ++ rest, rfl, by decide⟩

theorem scanInt_spec (l : List Char) (n : Int) :
    scanInt l = some n ↔ IsSignedDecimal l n := by
  constructor
  · intro h
    cases l with
    | nil => simp [scanInt] at h
    | cons c r =>
      simp only [scanInt] at h
      by_cases hs : c = '+' ∨ c = '-'
      · simp only [hs, if_true] at h
        by_cases hne : r.takeWhile isDigit = []
        · simp [hne] at h
        · rw [if_neg hne, ParseInt_spec] at h
          obtain ⟨rest, h1, h2, h3⟩ := takeWhile_split isDigit r
          refine ⟨[c], r.takeWhile isDigit, rest, ?_, ?_, hne, h2, h3, ?_, h.2⟩
          · rw [List.singleton_append, ← h1]
          · rcases hs with rfl | rfl <;> simp
          · rcases hs with rfl | rfl
            · simpa using h.1
            · simpa using h.1
      · simp only [hs, if_false] at h
        by_cases hne : (c :: r).takeWhile isDigit = []
        · simp [hne] at h
        · rw [if_neg hne, ParseInt_spec] at h
          obtain ⟨rest, h1, h2, h3⟩ := takeWhile_split isDigit (c :: r)
          refine ⟨[], (c :: r).takeWhile isDigit, rest, ?_, Or.inl rfl, hne, h2, h3, ?_, h.2⟩
          · rw [List.nil_append, ← h1]
          · have : c ≠ '-' := fun e => hs (Or.inr e)
            simpa [this] using h.1
  · rintro ⟨sgn, ds, rest, rfl, hs, hne, hd, hr, hn, hrange⟩
    obtain ⟨a, ds', rfl⟩ := List.exists_cons_of_ne_nil hne
    have ha := isDigit_not_space (hd a (List.mem_cons_self _ _))
    have htw := takeWhile_append_stop (a :: ds') rest hd hr
    rcases hs with rfl | rfl | rfl
    · have hs : ¬ (a = '+' ∨ a = '-') := by
        rintro (h | h)
        · exact ha.2.1 h
        · exact ha.2.2.1 h
      simp only [List.nil_append, List.cons_append, scanInt, hs, if_false]
      rw [List.cons_append] at htw
      rw [htw]
      simp only [reduceCtorEq, if_false]
      rw [ParseInt_spec]
      refine ⟨?_, hrange⟩
      simpa [ha.2.2.1] using hn
    · simp only [List.singleton_append, scanInt, true_or, if_true]
      rw [htw]
      simp only [reduceCtorEq, if_false]
      rw [ParseInt_spec]
      refine ⟨?_, hrange⟩
      simpa using hn
    · simp only [List.singleton_append, scanInt, or_true, if_true]
      rw [htw]
      simp only [reduceCtorEq, if_false]
      rw [ParseInt_spec]
      refine ⟨?_, hrange⟩
      simpa using hn

/-- The inputs `doScanf` accepts, and the number it reads from them. -/
theorem doScanf_iff (input : List Char) (n : Int) :
    doScanf input = some n ↔
      ∃ ws l : List Char, input = 'd' :: (ws ++ l) ∧ ws ≠ [] ∧
        (∀ c ∈ ws, isBlank c = true) ∧ IsSignedDecimal l n := by
  constructor
  · intro h
    cases input with
    | nil => simp [doScanf] at h
    | cons c i1 =>
      simp only [doScanf] at h
      split at h
      · cases h
      · rename_i hc
        have hc : c = 'd' := by simpa using hc
        subst hc
        cases i1 with
        | nil => simp [SkipSpace, scanInt] at h
        | cons s rest0 =>
          simp only at h
          by_cases hsp : isSpace s = true
          swap
          · simp [hsp] at h
          by_cases hnl : s = '\n'
          · simp [hsp, hnl] at h
          simp only [hsp, hnl, Bool.not_true, Bool.false_eq_true, if_false] at h
          obtain ⟨ws, h1, h2, h3⟩ := dropBlanks_spec rest0
          have hl : IsSignedDecimal (dropBlanks rest0) n := by
            cases hd : dropBlanks rest0 with
            | nil => rw [hd] at h; simp [SkipSpace, scanInt] at h
            | cons a r =>
              rw [hd] at h h3
              have hb := h3 a rfl
              by_cases ha : isSpace a = true
              · have : a = '\n' := by simpa [isBlank, ha] using hb
                subst this
                simp [SkipSpace_newline] at h
              · have ha : isSpace a = false := by simpa using ha
                simp only [SkipSpace_not_space a r ha] at h
                exact (scanInt_spec _ _).mp h
          refine ⟨s :: ws, dropBlanks rest0, ?_, by simp, ?_, hl⟩
          · rw [List.cons_append, ← h1]
          · intro c hc
            rcases List.mem_cons.mp hc with hc | hc
            · rw [hc]; simp [isBlank, hsp, hnl]
            · exact h2 c hc
  · rintro ⟨ws, l, rfl, hne, hws, hl⟩
    obtain ⟨s, ws', rfl⟩ := List.exists_cons_of_ne_nil hne
    obtain ⟨a, r, rfl, ha⟩ := hl.head
    have hs := hws s (List.mem_cons_self _ _)
    simp only [isBlank, Bool.and_eq_true, bne_iff_ne, ne_eq] at hs
    have hdb : dropBlanks (ws' ++ a :: r) = a :: r := by
      apply dropBlanks_append _ _ (fun c hc => hws c (List.mem_cons_of_mem _ hc))
      intro c hc
      simp only [List.head?_cons, Option.some.injEq] at hc
      subst hc
      simp [isBlank, ha]
    simp only [doScanf, List.cons_append, ne_eq, not_true_eq_false, if_false, hs.1, hs.2,
      Bool.not_true, Bool.false_eq_true, hdb, SkipSpace_not_space a r ha]
    exact (scanInt_spec _ _).mpr hl

/-- `Sscanf` reads the number `n` from exactly the rules of the shape `IsDRule`. -/
theorem Sscanf_iff (rule : String) (n : Int) : Sscanf rule = some n ↔ IsDRule rule n := by
  rw [Sscanf, doScanf_iff]
  constructor
  · rintro ⟨ws, l, h1, h2, h3, sgn, ds, rest, rfl, h4⟩
    exact ⟨ws, sgn, ds, rest, h1, h2, h3, h4⟩
  · rintro ⟨ws, sgn, ds, rest, h1, h2, h3, h4⟩
    exact ⟨ws, sgn ++ (ds ++ rest), h1, h2, h3, sgn, ds, rest, rfl, h4⟩

/-! ## Rules and their steps -/

theorem ruleStep_empty : ruleStep "" = none := by
  have h1 : ("" : String) ≠ "y" := by decide
  have h2 : ¬ (("" : String).utf8ByteSize > 1 ∧ ("" : String).data.head? = some 'd') := by decide
  simp only [ruleStep, h1, h2, if_false]

theorem ruleStep_advances {rule : String} {step : Time → Time} (h : ruleStep rule = some step) :
    Advances step := by
  unfold ruleStep at h
  split at h
  · cases h; exact advances_year
  · split at h
    · split at h
      · cases h
      · split at h
        · cases h
        · rename_i hd
          cases h
          exact advances_days _ (by omega)
    · cases h

/-- `nextDate` returns the first candidate of `step anchor, step (step anchor), ...`
that is not before `now`. -/
theorem nextDate_spec (now : Time) (date rule : String) (a : Time) (step : Time → Time)
    (ha : Parse date = some a) (hs : ruleStep rule = some step) :
    ∃ k : Nat, 1 ≤ k ∧ nextDate now date rule = .ok (step^[k] a).Format ∧
      (step^[k] a).Before now = false ∧
      ∀ j, 1 ≤ j → j < k → (step^[j] a).Before now = true := by
  have hadv := ruleStep_advances hs
  have hne : rule ≠ "" := by
    rintro rfl; rw [ruleStep_empty] at hs; cases hs
  obtain ⟨k, hk, hnb, hmin⟩ :=
    stepWhileBefore_spec step hadv now (loopFuel now (step a)) (step a) le_rfl
  refine ⟨k + 1, by omega, ?_, ?_, ?_⟩
  · unfold ruleStep at hs
    simp only [nextDate, ha, hne, if_false]
    split at hs
    · rename_i hy
      cases hs
      simp only [hy, if_true, hk, Function.iterate_succ_apply]
    · rename_i hy
      simp only [hy, if_false]
      split at hs
      · rename_i hd
        simp only [hd, and_self, if_true]
        split at hs
        · cases hs
        · rename_i days hsc
          split at hs
          · cases hs
          · rename_i hr
            cases hs
            simp only [hr, if_false, hk, Function.iterate_succ_apply]
      · cases hs
  · simpa only [Function.iterate_succ_apply] using hnb
  · intro j hj1 hj2
    obtain ⟨j', rfl⟩ : ∃ j', j = j' + 1 := ⟨j - 1, by omega⟩
    simpa only [Function.iterate_succ_apply] using hmin j' (by omega)

/-- With a date that parses, `nextDate` succeeds exactly on the rules that have a
step. -/
theorem nextDate_ok_iff (now : Time) (date rule : String) (a : Time)
    (ha : Parse date = some a) :
    (∃ r, nextDate now date rule = .ok r) ↔ (ruleStep rule).isSome = true := by
  constructor
  · rintro ⟨r, h⟩
    unfold ruleStep
    simp only [nextDate, ha] at h
    split at h
    · cases h
    · split at h
      · rename_i hy; simp [hy]
      · rename_i hy
        simp only [hy, if_false]
        split at h
        · rename_i hd
          simp only [hd, and_self, if_true]
          split at h
          · cases h
          · rename_i days hsc
            split at h
            · cases h
            · rename_i hr; simp [hr]
        · cases h
  · intro h
    obtain ⟨step, hs⟩ := Option.isSome_iff_exists.mp h
    obtain ⟨k, -, hk, -⟩ := nextDate_spec now date rule a step ha hs
    exact ⟨_, hk⟩

/-! ## Rules written as `d <n>` -/

theorem utf8ByteSize_go_ge (l : List Char) : l.length ≤ String.utf8ByteSize.go l := by
  induction l with
  | nil => simp [String.utf8ByteSize.go]
  | cons c l ih =>
    have := Char.utf8Size_pos c
    simp only [String.utf8ByteSize.go, List.length_cons]
    omega

theorem utf8ByteSize_ge (s : String) : s.data.length ≤ s.utf8ByteSize := by
  cases s with
  | mk l => exact utf8ByteSize_go_ge l

/-- The decimal numeral of an integer: a minus sign for a negative number, then the
digits of the absolute value. -/
theorem toString_int_data (n : Int) :
    (toString n).data = (if n < 0 then ['-'] else []) ++ Nat.toDigits 10 n.natAbs := by
  cases n with
  | ofNat m =>
    have : ¬ (Int.ofNat m < 0) := by simp
    rw [if_neg this]
    rfl
  | negSucc m =>
    have : Int.negSucc m < 0 := Int.negSucc_lt_zero m
    rw [if_pos this]
    rfl

/-- `Sscanf` reads `n` from `d <n>`, whatever follows the numeral, as long as that
does not continue the digits. -/
theorem Sscanf_numeral (n : Int) (h1 : -(2 : Int) ^ 63 ≤ n) (h2 : n < (2 : Int) ^ 63)
    (rest : String) (hr : ∀ c, rest.data.head? = some c → isDigit c = false) :
    Sscanf ("d " ++ toString n ++ rest) = some n := by
  rw [Sscanf_iff]
  have hdec := toDigits_spec n.natAbs
  have hlen : (Nat.toDigits 10 n.natAbs).length ≤ 20 :=
    hdec.length_le (by norm_num) (by omega)
  obtain ⟨hne, hdig, hval, -, -⟩ := hdec
  have hdata : ("d " ++ toString n ++ rest).data =
      'd' :: ([' '] ++ ((if n < 0 then ['-'] else []) ++
        (Nat.toDigits 10 n.natAbs ++ rest.data))) := by
    simp only [String.data_append, toString_int_data]
    simp
  have hsgn : (if n < 0 then ['-'] else ([] : List Char)).length ≤ 1 := by split <;> simp
  refine ⟨[' '], if n < 0 then ['-'] else [], Nat.toDigits 10 n.natAbs,
    rest.data.take (hugeWid - (2 + (if n < 0 then ['-'] else ([] : List Char)).length +
      (Nat.toDigits 10 n.natAbs).length)), ?_, by simp, ?_, ?_, hne, hdig, ?_, ?_, h1, h2⟩
  · rw [hdata]
    have e : 'd' :: ([' '] ++ ((if n < 0 then ['-'] else []) ++
        (Nat.toDigits 10 n.natAbs ++ rest.data))) =
        ('d' :: ' ' :: ((if n < 0 then ['-'] else []) ++ Nat.toDigits 10 n.natAbs)) ++
          rest.data := by simp
    rw [e, List.take_append_eq_append_take, List.take_of_length_le]
    · simp only [List.length_cons, List.length_append, List.cons_append, List.append_assoc,
        List.singleton_append, List.cons.injEq, true_and, List.append_cancel_left_eq]
      rw [List.nil_append, show (if n < 0 then ['-'] else ([] : List Char)).length +
        (Nat.toDigits 10 n.natAbs).length + 1 + 1 = 2 +
          (if n < 0 then ['-'] else ([] : List Char)).length +
          (Nat.toDigits 10 n.natAbs).length by omega]
    · have hw : hugeWid = 1073741824 := by norm_num [hugeWid]
      simp only [List.length_cons, List.length_append, hw]
      omega
  · intro c hc
    simp only [List.mem_singleton] at hc
    subst hc; decide
  · split <;> simp
  · intro c hc
    apply hr c
    cases hd : rest.data with
    | nil => rw [hd] at hc; simp at hc
    | cons a r =>
      rw [hd] at hc
      cases hk : hugeWid - (2 + (if n < 0 then ['-'] else ([] : List Char)).length +
        (Nat.toDigits 10 n.natAbs).length) with
      | zero => rw [hk] at hc; simp at hc
      | succ k => rw [hk] at hc; simpa using hc
  · rw [hval]
    by_cases hn : n < 0
    · simp only [hn, if_true]; omega
    · simp only [hn, if_false, reduceCtorEq]; omega

theorem Sscanf_d (n : Int) (h1 : -(2 : Int) ^ 63 ≤ n) (h2 : n < (2 : Int) ^ 63) :
    Sscanf ("d " ++ toString n) = some n := by
  have := Sscanf_numeral n h1 h2 "" (by simp)
  simpa using this

theorem d_rule_guard (s : String) :
    ("d " ++ s) ≠ "" ∧ ("d " ++ s) ≠ "y" ∧
      (("d " ++ s).utf8ByteSize > 1 ∧ ("d " ++ s).data.head? = some 'd') := by
  have hdata : ("d " ++ s).data = 'd' :: ' ' :: s.data := by
    simp only [String.data_append]; rfl
  refine ⟨?_, ?_, ?_, ?_⟩
  · intro h
    have := congrArg String.data h
    rw [hdata] at this
    cases this
  · intro h
    have := congrArg String.data h
    rw [hdata] at this
    cases this
  · have := utf8ByteSize_ge ("d " ++ s)
    rw [hdata] at this
    simp only [List.length_cons] at this
    omega
  · rw [hdata]; rfl

/-- A rule `d <n>` with `1 ≤ n ≤ 400` steps by `n` days. -/
theorem ruleStep_d (n : Int) (h1 : 1 ≤ n) (h2 : n ≤ 400) :
    ruleStep ("d " ++ toString n) = some (fun t => t.AddDate 0 0 n) := by
  obtain ⟨-, hy, hg⟩ := d_rule_guard (toString n)
  have hs := Sscanf_d n (by omega) (by omega)
  have hr : ¬ (n < 1 ∨ n > 400) := by omega
  simp only [ruleStep, hy, hg, hs, hr, and_self, if_true, if_false]

theorem iterate_addDays (n : Int) (k : Nat) (a : Time) :
    (fun t : Time => t.AddDate 0 0 n)^[k] a =
      { ns := a.ns + (k * n) * nsPerDay, offset := a.offset } := by
  induction k generalizing a with
  | zero => simp
  | succ k ih =>
    rw [Function.iterate_succ_apply, ih, AddDate_days]
    simp only [Time.mk.injEq, and_true]
    push_cast
    ring

/-! ## Parsed dates and yearly steps -/

theorem isDigit_val {c : Char} (h : isDigit c = true) : digitVal c ≤ 9 := by
  have h1 : 48 ≤ c.toNat ∧ c.toNat ≤ 57 := by
    simp only [isDigit, Bool.and_eq_true, decide_eq_true_eq] at h
    exact ⟨h.1, h.2⟩
  unfold digitVal; omega

theorem getnum_spec {s : List Char} {v : Int} {rest : List Char}
    (h : getnum s = some (v, rest)) :
    ∃ c0 c1, s = c0 :: c1 :: rest ∧ isDigit c0 = true ∧ isDigit c1 = true ∧
      v = ((digitVal c0 * 10 + digitVal c1 : Nat) : Int) := by
  unfold getnum at h
  split at h
  · rename_i c0 c1 r
    split at h
    · rename_i hd
      simp only [Bool.and_eq_true] at hd
      simp only [Option.some.injEq, Prod.mk.injEq] at h
      exact ⟨c0, c1, by rw [h.2], hd.1, hd.2, h.1.symm⟩
    · cases h
  · cases h

/-- What `time.Parse` accepts: eight digits `YYYYMMDD` that name an existing day, and
the result is midnight UTC of that day. -/
theorem Parse_spec {date : String} {a : Time} (h : Parse date = some a) :
    ∃ y0 y1 y2 y3 m0 m1 d0 d1 : Char,
      date.data = [y0, y1, y2, y3, m0, m1, d0, d1] ∧
      isDigit y0 = true ∧ isDigit y1 = true ∧ isDigit y2 = true ∧ isDigit y3 = true ∧
      isDigit m0 = true ∧ isDigit m1 = true ∧ isDigit d0 = true ∧ isDigit d1 = true ∧
      validDate (digitsVal [y0, y1, y2, y3]) (digitsVal [m0, m1]) (digitsVal [d0, d1]) ∧
      a = Date (digitsVal [y0, y1, y2, y3]) (digitsVal [m0, m1]) (digitsVal [d0, d1]) 0 0 := by
  unfold Parse at h
  split at h
  · rename_i y0 y1 y2 y3 rest hdata
    split at h
    · rename_i hy
      simp only [Bool.and_eq_true] at hy
      split at h
      · cases h
      · rename_i month rest1 hm
        split at h
        · cases h
        · rename_i hmr
          split at h
          · cases h
          · rename_i day rest2 hd
            split at h
            · cases h
            · rename_i hrest
              simp only at h
              split at h
              · cases h
              · rename_i hdr
                obtain ⟨m0, m1, rfl, hm0, hm1, rfl⟩ := getnum_spec hm
                obtain ⟨d0, d1, rfl, hd0, hd1, rfl⟩ := getnum_spec hd
                have hrest : rest2 = [] := by simpa using hrest
                subst hrest
                simp only [Option.some.injEq] at h
                have e1 : digitsVal [m0, m1] = digitVal m0 * 10 + digitVal m1 := by
                  simp [digitsVal]; ring
                have e2 : digitsVal [d0, d1] = digitVal d0 * 10 + digitVal d1 := by
                  simp [digitsVal]; ring
                refine ⟨y0, y1, y2, y3, m0, m1, d0, d1, hdata, hy.1.1.1, hy.1.1.2, hy.1.2,
                  hy.2, hm0, hm1, hd0, hd1, ?_, ?_⟩
                · rw [e1, e2]
                  refine ⟨?_, ?_, ?_, ?_⟩ <;> omega
                · rw [e1, e2]; exact h.symm
    · cases h
  · cases h

/-- A parsed date is the midnight UTC of an existing day of the years 0 to 9999. -/
theorem Parse_civil {date : String} {a : Time} (h : Parse date = some a) :
    ∃ y m d : Int, 0 ≤ y ∧ y ≤ 9999 ∧ validDate y m d ∧ a = Date y m d 0 0 := by
  obtain ⟨y0, y1, y2, y3, m0, m1, d0, d1, -, h0, h1, h2, h3, -, -, -, -, hv, ha⟩ := Parse_spec h
  refine ⟨_, _, _, by positivity, ?_, hv, ha⟩
  have := isDigit_val h0
  have := isDigit_val h1
  have := isDigit_val h2
  have := isDigit_val h3
  simp only [digitsVal, List.foldl]
  omega

theorem zero_lt_nsPerDay : (0 : Int) < nsPerDay := by decide

/-- `AddDate(1, 0, 0)` on the midnight of an existing day: the same month and day
in the next year, still to be normalised. -/
theorem addYear_civil (y m d : Int) (h : validDate y m d) :
    (Date y m d 0 0).AddDate 1 0 0 = Date (y + 1) m d 0 0 := by
  obtain ⟨h1, h2, h3⟩ := Date_Date y m d 0 0 h le_rfl zero_lt_nsPerDay
  simp only [Time.AddDate, h1, h2, h3, add_zero]

theorem isLeap_succ {y : Int} (h : isLeap y = true) : isLeap (y + 1) = false := by
  simp only [isLeap, Bool.and_eq_true, Bool.or_eq_true, beq_iff_eq, bne_iff_ne, ne_eq] at h
  have : ¬ (isLeap (y + 1) = true) := by
    simp only [isLeap, Bool.and_eq_true, Bool.or_eq_true, beq_iff_eq, bne_iff_ne, ne_eq]
    omega
  simpa using this

/-- Every day but 29 February exists in the next year as well. -/
theorem validDate_succ_year (y m d : Int) (h : validDate y m d) (hne : ¬ (m = 2 ∧ d = 29)) :
    validDate (y + 1) m d := by
  obtain ⟨h1, h2, h3, h4⟩ := h
  refine ⟨h1, h2, h3, ?_⟩
  unfold daysIn at h4 ⊢
  have hb := daysBefore_vals
  by_cases hm : m = 2
  · subst hm
    simp only [true_and] at h4 hne ⊢
    norm_num [hb.2.1, hb.2.2.1] at h4 ⊢
    split at h4 <;> split <;> omega
  · simpa [hm] using h4

/-- 29 February of a year that is not a leap year is 1 March. -/
theorem Date_feb29 (y : Int) (h : isLeap y = false) : Date y 2 29 0 0 = Date y 3 1 0 0 := by
  have hb := daysBefore_vals
  rw [Date_ns y 2 29 0 0 (by norm_num) (by norm_num), Date_ns y 3 1 0 0 (by norm_num) (by norm_num)]
  simp only [dayNumber, dayOfYear, h]
  norm_num [hb.2.1, hb.2.2.1]

theorem validDate_mar1 (y : Int) : validDate y 3 1 := by
  have hb := daysBefore_vals
  refine ⟨by norm_num, by norm_num, by norm_num, ?_⟩
  norm_num [daysIn, hb.2.2.1, hb.2.2.2.1]

theorem yearlyDay_ne (m d : Int) : ¬ ((yearlyDay m d).1 = 2 ∧ (yearlyDay m d).2 = 29) := by
  unfold yearlyDay
  split
  · simp
  · assumption

theorem yearlyDay_idem (m d : Int) :
    yearlyDay (yearlyDay m d).1 (yearlyDay m d).2 = yearlyDay m d := by
  have := yearlyDay_ne m d
  generalize yearlyDay m d = p at this ⊢
  unfold yearlyDay
  rw [if_neg this]

/-- The first yearly step. -/
theorem addYear_first (y m d : Int) (h : validDate y m d) :
    (Date y m d 0 0).AddDate 1 0 0 = Date (y + 1) (yearlyDay m d).1 (yearlyDay m d).2 0 0 ∧
      validDate (y + 1) (yearlyDay m d).1 (yearlyDay m d).2 := by
  rw [addYear_civil y m d h]
  unfold yearlyDay
  by_cases hf : m = 2 ∧ d = 29
  · rw [if_pos hf]
    obtain ⟨rfl, rfl⟩ := hf
    have hl : isLeap y = true := by
      have h4 := h.2.2.2
      have hb := daysBefore_vals
      unfold daysIn at h4
      by_contra hl
      norm_num [hl, hb.2.1, hb.2.2.1] at h4
    exact ⟨Date_feb29 _ (isLeap_succ hl), validDate_mar1 _⟩
  · rw [if_neg hf]
    exact ⟨rfl, validDate_succ_year y m d h hf⟩

/-- After `k ≥ 1` yearly steps the candidate is the midnight UTC of the same month and
day `k` years later, with 29 February replaced by 1 March. -/
theorem iterate_addYear (y m d : Int) (h : validDate y m d) (k : Nat) :
    (fun t : Time => t.AddDate 1 0 0)^[k + 1] (Date y m d 0 0) =
        Date (y + (k + 1 : Nat)) (yearlyDay m d).1 (yearlyDay m d).2 0 0 ∧
      validDate (y + (k + 1 : Nat)) (yearlyDay m d).1 (yearlyDay m d).2 := by
  induction k with
  | zero =>
    simpa using addYear_first y m d h
  | succ k ih =>
    obtain ⟨ih1, ih2⟩ := ih
    rw [Function.iterate_succ_apply', ih1]
    have := addYear_first _ _ _ ih2
    rw [yearlyDay_idem] at this
    have e : y + ((k + 1 + 1 : Nat) : Int) = y + ((k + 1 : Nat) : Int) + 1 := by
      push_cast; ring
    rw [e]
    exact this

/-! ## The recurrence engine: claims C1 to C3 -/

/-- Scenario 1: reference 2024-01-10, anchor 2024-01-08, rule `d 10`. -/
theorem scenario_1 : nextDate (Date 2024 1 10 0 0) "20240108" "d 10" = .ok "20240118" := by
  decide

/-- Scenario 2: reference 2024-07-01, anchor 2024-01-02, rule `y`. -/
theorem scenario_2 : nextDate (Date 2024 7 1 0 0) "20240102" "y" = .ok "20250102" := by
  decide

/-- C1. For every anchor date, every reference `now` and every `n` with
`1 ≤ n ≤ 400`, `nextDate now anchor "d <n>"` succeeds and returns the date of a time
`d` that is not before `now` and lies an exact positive multiple `k * n` of days after
the anchor. -/
theorem nextDate_days_multiple (now : Time) (date : String) (anchor : Time) (n : Int)
    (hdate : Parse date = some anchor) (h1 : 1 ≤ n) (h2 : n ≤ 400) :
    ∃ (d : Time) (k : Int), nextDate now date ("d " ++ toString n) = .ok d.Format ∧
      d.Before now = false ∧ 1 ≤ k ∧ d.ns - anchor.ns = (k * n) * nsPerDay ∧
      d.offset = anchor.offset := by
  obtain ⟨k, hk, hres, hnb, -⟩ :=
    nextDate_spec now date _ anchor _ hdate (ruleStep_d n h1 h2)
  rw [iterate_addDays] at hres hnb
  refine ⟨_, (k : Int), hres, hnb, by exact_mod_cast hk, ?_, rfl⟩
  simp

/-- Witness of C1: the anchor 2024-01-08 with `n = 10` and the reference 2024-01-10. -/
theorem nextDate_days_multiple_witness :
    Parse "20240108" = some (Date 2024 1 8 0 0) ∧
    ∃ (d : Time) (k : Int),
      nextDate (Date 2024 1 10 0 0) "20240108" ("d " ++ toString (10 : Int)) = .ok d.Format ∧
      d.Before (Date 2024 1 10 0 0) = false ∧ 1 ≤ k ∧
      d.ns - (Date 2024 1 8 0 0).ns = (k * 10) * nsPerDay ∧
      d.offset = (Date 2024 1 8 0 0).offset :=
  ⟨by decide, nextDate_days_multiple (Date 2024 1 10 0 0) "20240108" (Date 2024 1 8 0 0) 10
    (by decide) (by decide) (by decide)⟩

/-- C2 as stated fails for a leap-day anchor: the anchor 2024-02-29 with the
reference 2024-03-01 gives 2025-03-01, whose month and day are not the anchor's. -/
theorem yearly_leap_day_counterexample :
    nextDate (Date 2024 3 1 0 0) "20240229" "y" = .ok "20250301" ∧
    (Parse "20240229").map (fun t => t.Date) = some (2024, 2, 29) ∧
    (Parse "20250301").map (fun t => t.Date) = some (2025, 3, 1) := by
  decide

theorem ruleStep_y : ruleStep "y" = some (fun t => t.AddDate 1 0 0) := by
  simp [ruleStep]

/-- C2, amended. For every anchor date and every reference `now`, `nextDate now anchor
"y"` returns the date of the time `d` that is the midnight UTC of a calendar day whose
year is a whole number `k ≥ 1` of years after the anchor's and whose month and day are
the anchor's, except that an anchor on 29 February gives 1 March; and `d` is not
before `now`. -/
theorem nextDate_yearly (now : Time) (date : String) (anchor : Time)
    (hdate : Parse date = some anchor) :
    ∃ (d : Time) (k : Int), nextDate now date "y" = .ok d.Format ∧
      d.Before now = false ∧ 1 ≤ k ∧
      d = Date (anchor.Date.1 + k)
            (if anchor.Date.2 = (2, 29) then (3, 1) else anchor.Date.2).1
            (if anchor.Date.2 = (2, 29) then (3, 1) else anchor.Date.2).2 0 0 ∧
      d.Date.1 = anchor.Date.1 + k ∧
      d.Date.2 = (if anchor.Date.2 = (2, 29) then (3, 1) else anchor.Date.2) := by
  obtain ⟨k, hk, hres, hnb, -⟩ := nextDate_spec now date "y" anchor _ hdate ruleStep_y
  obtain ⟨y, m, dd, -, -, hv, rfl⟩ := Parse_civil hdate
  obtain ⟨k', rfl⟩ : ∃ k', k = k' + 1 := ⟨k - 1, by omega⟩
  obtain ⟨hit, hval⟩ := iterate_addYear y m dd hv k'
  rw [hit] at hres hnb
  have hd := (Date_Date _ _ _ 0 0 hval le_rfl zero_lt_nsPerDay).1
  have ha := (Date_Date y m dd 0 0 hv le_rfl zero_lt_nsPerDay).1
  have hmd : (if (m, dd) = ((2 : Int), (29 : Int)) then ((3 : Int), (1 : Int)) else (m, dd)) =
      yearlyDay m dd := by
    simp only [yearlyDay, Prod.mk.injEq]
  refine ⟨_, ((k' + 1 : Nat) : Int), hres, hnb, by exact_mod_cast hk, ?_, ?_, ?_⟩
  · rw [ha]
    simp only [hmd]
  · rw [hd, ha]
  · rw [hd, ha]
    simp only [hmd]

/-- Witness of C2 (amended): the anchor 2024-02-29 with the reference 2024-03-01. -/
theorem nextDate_yearly_witness :
    Parse "20240229" = some (Date 2024 2 29 0 0) ∧
    ∃ (d : Time) (k : Int), nextDate (Date 2024 3 1 0 0) "20240229" "y" = .ok d.Format ∧
      d.Before (Date 2024 3 1 0 0) = false ∧ 1 ≤ k ∧
      d = Date ((Date 2024 2 29 0 0).Date.1 + k)
            (if (Date 2024 2 29 0 0).Date.2 = (2, 29) then (3, 1)
              else (Date 2024 2 29 0 0).Date.2).1
            (if (Date 2024 2 29 0 0).Date.2 = (2, 29) then (3, 1)
              else (Date 2024 2 29 0 0).Date.2).2 0 0 ∧
      d.Date.1 = (Date 2024 2 29 0 0).Date.1 + k ∧
      d.Date.2 = (if (Date 2024 2 29 0 0).Date.2 = (2, 29) then (3, 1)
        else (Date 2024 2 29 0 0).Date.2) :=
  ⟨by decide, nextDate_yearly (Date 2024 3 1 0 0) "20240229" (Date 2024 2 29 0 0) (by decide)⟩

/-- C3 as stated fails: with reference and anchor both 2024-01-01 and the rule `d 1`
the anchor is not before the reference, yet the result is 2024-01-02, not the
anchor. -/
theorem first_step_counterexample :
    Parse "20240101" = some (Date 2024 1 1 0 0) ∧
    (Date 2024 1 1 0 0).Before (Date 2024 1 1 0 0) = false ∧
    nextDate (Date 2024 1 1 0 0) "20240101" "d 1" = .ok "20240102" := by
  decide

theorem iterate_advances (step : Time → Time) (hs : Advances step) (a : Time) (k : Nat) :
    a.ns + k * nsPerDay ≤ (step^[k] a).ns := by
  induction k with
  | zero => simp
  | succ k ih =>
    rw [Function.iterate_succ_apply']
    have := hs (step^[k] a)
    push_cast
    linarith

/-- C3, amended. For every rule with a step (`y`, or a `d` rule of 1 to 400 days),
`nextDate` returns the first date of the sequence `step anchor, step (step anchor),
...` that is not before the reference: the candidate starts one step after the anchor,
so at least one step is taken and the result is always later than the anchor. -/
theorem nextDate_first_not_before (now : Time) (date rule : String) (anchor : Time)
    (step : Time → Time) (hdate : Parse date = some anchor)
    (hrule : ruleStep rule = some step) :
    ∃ k : Nat, 1 ≤ k ∧ nextDate now date rule = .ok (step^[k] anchor).Format ∧
      (step^[k] anchor).Before now = false ∧
      (∀ j, 1 ≤ j → j < k → (step^[j] anchor).Before now = true) ∧
      anchor.Before (step^[k] anchor) = true := by
  obtain ⟨k, hk, hres, hnb, hmin⟩ := nextDate_spec now date rule anchor step hdate hrule
  refine ⟨k, hk, hres, hnb, hmin, ?_⟩
  have h := iterate_advances step (ruleStep_advances hrule) anchor k
  rw [Before_iff]
  have : (1 : Int) ≤ k := by exact_mod_cast hk
  have hpos := zero_lt_nsPerDay
  nlinarith

/-- Witness of C3 (amended): reference and anchor 2024-01-01 with the rule `d 1`. -/
theorem nextDate_first_not_before_witness :
    Parse "20240101" = some (Date 2024 1 1 0 0) ∧
    ruleStep "d 1" = some (fun t => t.AddDate 0 0 1) ∧
    ∃ k : Nat, 1 ≤ k ∧
      nextDate (Date 2024 1 1 0 0) "20240101" "d 1" =
        .ok ((fun t : Time => t.AddDate 0 0 1)^[k] (Date 2024 1 1 0 0)).Format ∧
      ((fun t : Time => t.AddDate 0 0 1)^[k] (Date 2024 1 1 0 0)).Before
        (Date 2024 1 1 0 0) = false ∧
      (∀ j, 1 ≤ j → j < k →
        ((fun t : Time => t.AddDate 0 0 1)^[j] (Date 2024 1 1 0 0)).Before
          (Date 2024 1 1 0 0) = true) ∧
      (Date 2024 1 1 0 0).Before
        ((fun t : Time => t.AddDate 0 0 1)^[k] (Date 2024 1 1 0 0)) = true :=
  ⟨by decide, ruleStep_d 1 (by decide) (by decide),
    nextDate_first_not_before (Date 2024 1 1 0 0) "20240101" "d 1" (Date 2024 1 1 0 0) _
      (by decide) (ruleStep_d 1 (by decide) (by decide))⟩

/-! ## Formatting and parsing back -/

theorem digitsVal_replicate_zero (z : Nat) (l : List Char) :
    digitsVal (List.replicate z '0' ++ l) = digitsVal l := by
  induction z with
  | zero => simp
  | succ z ih =>
    have h0 : digitVal '0' = 0 := by decide
    simp only [digitsVal, List.replicate_succ, List.cons_append, List.foldl_cons, h0] at ih ⊢
    exact ih

theorem isDigit_zero : isDigit '0' = true := by decide

/-- A number of at most `w` digits is formatted as exactly `w` digits. -/
theorem appendInt_short (x : Int) (w : Nat) (hw : 0 < w) (h0 : 0 ≤ x) (h1 : x < 10 ^ w) :
    (appendInt x w).length = w ∧ (∀ c ∈ appendInt x w, isDigit c = true) ∧
      (digitsVal (appendInt x w) : Int) = x := by
  have hdec := toDigits_spec x.natAbs
  have hlen : (Nat.toDigits 10 x.natAbs).length ≤ w :=
    hdec.length_le hw (by zify; rw [abs_of_nonneg h0]; exact_mod_cast h1)
  obtain ⟨-, hdig, hval, -, -⟩ := hdec
  have hneg : ¬ x < 0 := by omega
  simp only [appendInt, hneg, if_false, List.nil_append]
  refine ⟨?_, ?_, ?_⟩
  · simp only [List.length_append, List.length_replicate]; omega
  · intro c hc
    rcases List.mem_append.mp hc with hc | hc
    · rw [(List.mem_replicate.mp hc).2]; exact isDigit_zero
    · exact hdig c hc
  · rw [digitsVal_replicate_zero, hval]; omega

/-- A number of more than `w` digits is formatted with all its digits. -/
theorem appendInt_long (x : Int) (w : Nat) (h1 : 10 ^ w ≤ x) : w < (appendInt x w).length := by
  have hdec := toDigits_spec x.natAbs
  obtain ⟨-, -, -, hub, -⟩ := hdec
  have hx : (10 : Nat) ^ w ≤ x.natAbs := by
    zify
    have : (0 : Int) ≤ x := le_trans (by positivity) h1
    rw [abs_of_nonneg this]; exact_mod_cast h1
  have hlt : (10 : Nat) ^ w < 10 ^ (Nat.toDigits 10 x.natAbs).length := lt_of_le_of_lt hx hub
  have := (Nat.pow_lt_pow_iff_right (by norm_num : 1 < 10)).mp hlt
  simp only [appendInt, List.length_append]
  omega

theorem appendInt_neg (x : Int) (w : Nat) (h : x < 0) : ∃ l, appendInt x w = '-' :: l := by
  simp only [appendInt, h, if_true]
  exact ⟨_, rfl⟩

/-- Any time is `time.Date` of its own calendar day, time of day and location. -/
theorem Date_of_parts (t : Time) :
    Date t.Date.1 t.Date.2.1 t.Date.2.2 t.clock t.offset = t := by
  have h := AddDate_days t 0
  simp only [Time.AddDate, add_zero, zero_mul] at h
  exact h

/-- A midnight UTC: no offset and no time of day. -/
theorem midnight_eq (t : Time) (h1 : t.offset = 0) (h2 : t.clock = 0) :
    t = Date t.Date.1 t.Date.2.1 t.Date.2.2 0 0 := by
  have := Date_of_parts t
  rw [h1, h2] at this
  exact this.symm

theorem validDate_day_le {y m d : Int} (h : validDate y m d) : 1 ≤ d ∧ d ≤ 31 := by
  have := daysIn_bounds y m h.1 h.2.1
  exact ⟨h.2.2.1, le_trans h.2.2.2 this.2⟩

/-- The formatted date of a time parses only when its year has four digits, and then
to the midnight UTC of its calendar day. -/
theorem Parse_Format_date (c t : Time) (h : Parse c.Format = some t) :
    t = Date c.Date.1 c.Date.2.1 c.Date.2.2 0 0 ∧ 0 ≤ c.Date.1 ∧ c.Date.1 ≤ 9999 := by
  obtain ⟨y0, y1, y2, y3, m0, m1, d0, d1, hdata, hy0, -, -, -, -, -, -, -, -, ht⟩ :=
    Parse_spec h
  have hv := Date_valid c
  have hfmt : c.Format.data =
      appendInt c.Date.1 4 ++ appendInt c.Date.2.1 2 ++ appendInt c.Date.2.2 2 := rfl
  generalize c.Date.1 = y at *
  generalize c.Date.2.1 = m at *
  generalize c.Date.2.2 = d at *
  rw [hfmt] at hdata
  obtain ⟨hm1, hm2, hm3⟩ := appendInt_short m 2 (by norm_num) (by have := hv.1; omega)
    (by have := hv.2.1; omega)
  have hdd := validDate_day_le hv
  obtain ⟨hd1, hd2, hd3⟩ := appendInt_short d 2 (by norm_num) (by omega) (by omega)
  have hylen : (appendInt y 4).length = 4 := by
    have := congrArg List.length hdata
    simp only [List.length_append, hm1, hd1, List.length_cons, List.length_nil] at this
    omega
  have hy0' : 0 ≤ y := by
    by_contra hneg
    obtain ⟨l, hl⟩ := appendInt_neg y 4 (by omega)
    rw [hl] at hdata
    simp only [List.cons_append, List.cons.injEq] at hdata
    rw [← hdata.1] at hy0
    revert hy0; decide
  have hy1 : y < 10 ^ 4 := by
    by_contra hge
    have := appendInt_long y 4 (by omega)
    omega
  obtain ⟨-, -, hy3⟩ := appendInt_short y 4 (by norm_num) hy0' hy1
  have e1 : appendInt y 4 ++ appendInt m 2 ++ appendInt d 2 =
      appendInt y 4 ++ (appendInt m 2 ++ appendInt d 2) := List.append_assoc _ _ _
  have e2 : [y0, y1, y2, y3, m0, m1, d0, d1] = [y0, y1, y2, y3] ++ ([m0, m1] ++ [d0, d1]) := rfl
  rw [e1, e2] at hdata
  obtain ⟨ha, hb⟩ := List.append_inj hdata (by rw [hylen]; rfl)
  obtain ⟨hb1, hb2⟩ := List.append_inj hb (by rw [hm1]; rfl)
  rw [← ha, ← hb1, ← hb2, hy3, hm3, hd3] at ht
  exact ⟨ht, hy0', by omega⟩

/-- If the formatted date of a midnight UTC parses, it parses to that midnight. -/
theorem Parse_Format (c t : Time) (h1 : c.offset = 0) (h2 : c.clock = 0)
    (h : Parse c.Format = some t) : t = c := by
  rw [(Parse_Format_date c t h).1]
  exact (midnight_eq c h1 h2).symm

/-! ## Calling `nextDate` again: claim C4 -/

/-- The step of a rule moves a time by whole days and keeps its location. -/
theorem ruleStep_shape {rule : String} {step : Time → Time} (h : ruleStep rule = some step)
    (t : Time) : ∃ n : Int, step t = { ns := t.ns + n * nsPerDay, offset := t.offset } := by
  unfold ruleStep at h
  split at h
  · cases h
    obtain ⟨n, -, -, hn⟩ := AddDate_year t
    exact ⟨n, hn⟩
  · split at h
    · split at h
      · cases h
      · split at h
        · cases h
        · cases h
          exact ⟨_, AddDate_days t _⟩
    · cases h

theorem iterate_shape {rule : String} {step : Time → Time} (h : ruleStep rule = some step)
    (a : Time) (k : Nat) :
    ∃ n : Int, step^[k] a = { ns := a.ns + n * nsPerDay, offset := a.offset } := by
  induction k with
  | zero => exact ⟨0, by simp⟩
  | succ k ih =>
    obtain ⟨n, hn⟩ := ih
    obtain ⟨n', hn'⟩ := ruleStep_shape h (step^[k] a)
    refine ⟨n + n', ?_⟩
    rw [Function.iterate_succ_apply', hn', hn]
    simp only [Time.mk.injEq, and_true]
    ring

/-- The candidates of `nextDate` are midnights UTC. -/
theorem iterate_midnight {rule date : String} {step : Time → Time} {a : Time}
    (h : ruleStep rule = some step) (ha : Parse date = some a) (k : Nat) :
    (step^[k] a).offset = 0 ∧ (step^[k] a).clock = 0 := by
  obtain ⟨y, m, d, -, -, hv, rfl⟩ := Parse_civil ha
  obtain ⟨n, hn⟩ := iterate_shape h (Date y m d 0 0) k
  rw [hn, Date_ns y m d 0 0 hv.1 hv.2.1]
  refine ⟨rfl, ?_⟩
  simp only [Time.clock, Time.wall]
  have : dayNumber y m d * nsPerDay + 0 - 0 * 1000000000 + n * nsPerDay + 0 * 1000000000 =
      (dayNumber y m d + n) * nsPerDay := by ring
  rw [this]
  exact Int.mul_emod_left _ _

theorem iterate_strictMono (step : Time → Time) (hs : Advances step) (a : Time) {j k : Nat}
    (h : j < k) : (step^[j] a).ns < (step^[k] a).ns := by
  obtain ⟨i, rfl⟩ : ∃ i, k = (i + 1) + j := ⟨k - j - 1, by omega⟩
  rw [Function.iterate_add_apply]
  have := iterate_advances step hs (step^[j] a) (i + 1)
  have hpos := zero_lt_nsPerDay
  push_cast at this
  nlinarith

theorem nextDate_ok_parse {now : Time} {date rule r : String}
    (h : nextDate now date rule = .ok r) : ∃ a, Parse date = some a := by
  cases hp : Parse date with
  | none => simp [nextDate, hp] at h
  | some a => exact ⟨a, rfl⟩

/-- C4 as stated fails: the reference 2024-01-10 with the anchor 2024-01-08 and the
rule `d 10` gives 2024-01-18, and the reference 2024-01-18 with the same anchor and
rule gives 2024-01-18 again, not a later date. -/
theorem no_progress_counterexample :
    nextDate (Date 2024 1 10 0 0) "20240108" "d 10" = .ok "20240118" ∧
    Parse "20240118" = some (Date 2024 1 18 0 0) ∧
    nextDate (Date 2024 1 18 0 0) "20240108" "d 10" = .ok "20240118" := by
  decide

/-- C4, amended. If `nextDate now anchor rule` returns `r1`, then `nextDate` with the
same anchor and rule and the reference set to the date `r1` returns `r1` again: the
result is a fixed point, it is not before `r1` but never later than `r1`. -/
theorem nextDate_fixed_point (now : Time) (date rule r1 : String) (t : Time)
    (h : nextDate now date rule = .ok r1) (ht : Parse r1 = some t) :
    nextDate t date rule = .ok r1 := by
  obtain ⟨a, ha⟩ := nextDate_ok_parse h
  obtain ⟨step, hs⟩ := Option.isSome_iff_exists.mp
    ((nextDate_ok_iff now date rule a ha).mp ⟨r1, h⟩)
  have hadv := ruleStep_advances hs
  obtain ⟨k, hk, hres, hnb, hmin⟩ := nextDate_spec now date rule a step ha hs
  rw [h, Except.ok.injEq] at hres
  have hmid := iterate_midnight hs ha k
  rw [hres] at ht
  have htc := Parse_Format _ t hmid.1 hmid.2 ht
  obtain ⟨k', hk', hres', hnb', hmin'⟩ := nextDate_spec t date rule a step ha hs
  have hkk : k' = k := by
    rcases lt_trichotomy k' k with hlt | heq | hgt
    · have := iterate_strictMono step hadv a hlt
      rw [htc] at hnb'
      simp only [Time.Before, decide_eq_false_iff_not] at hnb'
      omega
    · exact heq
    · have := hmin' k hk hgt
      rw [htc] at this
      simp only [Time.Before, decide_eq_true_eq] at this
      omega
  rw [hres', hkk, hres]

/-- Witness of C4 (amended): the two calls of the counterexample. -/
theorem nextDate_fixed_point_witness :
    nextDate (Date 2024 1 10 0 0) "20240108" "d 10" = .ok "20240118" ∧
    Parse "20240118" = some (Date 2024 1 18 0 0) ∧
    nextDate (Date 2024 1 18 0 0) "20240108" "d 10" = .ok "20240118" :=
  ⟨by decide, by decide,
    nextDate_fixed_point (Date 2024 1 10 0 0) "20240108" "d 10" "20240118" (Date 2024 1 18 0 0)
      (by decide) (by decide)⟩

/-! ## Numerals too long for 64 bits -/

theorem foldl_digits (l : List Char) (acc : Nat) :
    l.foldl (fun acc c => 10 * acc + digitVal c) acc = acc * 10 ^ l.length + digitsVal l := by
  induction l generalizing acc with
  | nil => simp [digitsVal]
  | cons c l ih =>
    simp only [List.foldl_cons, digitsVal, List.length_cons]
    rw [ih, ih (10 * 0 + digitVal c)]
    ring

theorem digitsVal_append_list (l r : List Char) :
    digitsVal (l ++ r) = digitsVal l * 10 ^ r.length + digitsVal r := by
  simp only [digitsVal, List.foldl_append]
  rw [foldl_digits r]
  rfl

theorem digitsVal_lt (l : List Char) (h : ∀ c ∈ l, isDigit c = true) :
    digitsVal l < 10 ^ l.length := by
  induction l using List.reverseRecOn with
  | nil => simp [digitsVal]
  | append_singleton l c ih =>
    have hc := isDigit_val (h c (by simp))
    have := ih (fun x hx => h x (by simp [hx]))
    rw [digitsVal_append, List.length_append, List.length_singleton, pow_succ]
    omega

/-- Cutting a long numeral of a number of at least 19 digits leaves a number of at
least 19 digits. -/
theorem digitsVal_take_ge (l : List Char) (n : Nat) (hdec : IsDecimal l n) (j : Nat)
    (hj : 20 ≤ j) (b : Nat) (hb : b ≤ 10 ^ 19) (hn : b ≤ n) : b ≤ digitsVal (l.take j) := by
  obtain ⟨-, hdig, hval, -, hlb⟩ := hdec
  by_cases hlen : l.length ≤ j
  · rw [List.take_of_length_le hlen, hval]; exact hn
  · have hlen : j < l.length := by omega
    have hsplit := digitsVal_append_list (l.take j) (l.drop j)
    rw [List.take_append_drop, hval] at hsplit
    have hr := digitsVal_lt (l.drop j) (fun c hc => hdig c (List.mem_of_mem_drop hc))
    have hrl : (l.drop j).length = l.length - j := List.length_drop j l
    have hlow : 10 ^ (l.length - 1) ≤ n := by
      rcases hlb with h1 | h1
      · omega
      · exact h1
    by_contra hlt
    have h19 : digitsVal (l.take j) + 1 ≤ 10 ^ (j - 1) := by
      have : (10 : Nat) ^ 19 ≤ 10 ^ (j - 1) := Nat.pow_le_pow_right (by norm_num) (by omega)
      omega
    have hmul : (digitsVal (l.take j) + 1) * 10 ^ (l.drop j).length ≤
        10 ^ (j - 1) * 10 ^ (l.drop j).length := Nat.mul_le_mul_right _ h19
    rw [← pow_add, hrl] at hmul
    have e : j - 1 + (l.length - j) = l.length - 1 := by omega
    rw [e] at hmul
    rw [hrl] at hsplit hr
    have : n < (digitsVal (l.take j) + 1) * 10 ^ (l.length - j) := by
      rw [hsplit, add_mul, one_mul]; omega
    omega

theorem scanInt_eval (sgn ds rest : List Char)
    (hs : sgn = [] ∨ sgn = ['+'] ∨ sgn = ['-']) (hne : ds ≠ [])
    (hd : ∀ c ∈ ds, isDigit c = true) (hr : ∀ c, rest.head? = some c → isDigit c = false) :
    scanInt (sgn ++ (ds ++ rest)) = ParseInt (decide (sgn = ['-'])) ds := by
  obtain ⟨a, ds', rfl⟩ := List.exists_cons_of_ne_nil hne
  have ha := isDigit_not_space (hd a (List.mem_cons_self _ _))
  have htw := takeWhile_append_stop (a :: ds') rest hd hr
  rcases hs with rfl | rfl | rfl
  · have hs : ¬ (a = '+' ∨ a = '-') := by
      rintro (h | h)
      · exact ha.2.1 h
      · exact ha.2.2.1 h
    simp only [List.nil_append, List.cons_append, scanInt, hs, if_false]
    rw [List.cons_append] at htw
    rw [htw]
    simp [ha.2.2.1]
  · simp only [List.singleton_append, scanInt, true_or, if_true]
    rw [htw]
    simp
  · simp only [List.singleton_append, scanInt, or_true, if_true]
    rw [htw]
    simp

theorem doScanf_eval (sgn ds rest : List Char)
    (hs : sgn = [] ∨ sgn = ['+'] ∨ sgn = ['-']) (hne : ds ≠ [])
    (hd : ∀ c ∈ ds, isDigit c = true) (hr : ∀ c, rest.head? = some c → isDigit c = false) :
    doScanf ('d' :: ' ' :: (sgn ++ (ds ++ rest))) = ParseInt (decide (sgn = ['-'])) ds := by
  have he := scanInt_eval sgn ds rest hs hne hd hr
  obtain ⟨a, r, hl, ha⟩ : ∃ a r, sgn ++ (ds ++ rest) = a :: r ∧ isSpace a = false := by
    obtain ⟨x, ds', rfl⟩ := List.exists_cons_of_ne_nil hne
    have hx := isDigit_not_space (hd x (List.mem_cons_self _ _))
    rcases hs with rfl | rfl | rfl
    · exact ⟨x, ds' ++ rest, rfl, hx.1⟩
    · exact ⟨'+', x :: ds' ++ rest, rfl, by decide⟩
    · exact ⟨'-', x :: ds' ++ rest, rfl, by decide⟩
  rw [hl] at he ⊢
  have hdb : dropBlanks (a :: r) = a :: r := by
    simp [dropBlanks, ha]
  have hsp : isSpace ' ' = true := by decide
  have hnl : (' ' : Char) ≠ '\n' := by decide
  simp only [doScanf, ne_eq, not_true_eq_false, if_false, hsp, hnl, Bool.not_true,
    Bool.false_eq_true, hdb, SkipSpace_not_space a r ha]
  exact he

/-- `Sscanf` fails on `d <n>` when `n` does not fit 64 bits. -/
theorem Sscanf_overflow (n : Int) (h : n < -(2 : Int) ^ 63 ∨ (2 : Int) ^ 63 ≤ n) :
    Sscanf ("d " ++ toString n) = none := by
  have hdec := toDigits_spec n.natAbs
  have hw : hugeWid = 1073741824 := by norm_num [hugeWid]
  have hdata : ("d " ++ toString n).data =
      'd' :: ' ' :: ((if n < 0 then ['-'] else []) ++ Nat.toDigits 10 n.natAbs) := by
    simp only [String.data_append, toString_int_data]
    rfl
  have hsl : (if n < 0 then ['-'] else ([] : List Char)).length ≤ 1 := by split <;> simp
  have htake : ("d " ++ toString n).data.take hugeWid =
      'd' :: ' ' :: ((if n < 0 then ['-'] else []) ++
        ((Nat.toDigits 10 n.natAbs).take
          (hugeWid - 2 - (if n < 0 then ['-'] else ([] : List Char)).length) ++ [])) := by
    rw [hdata, hw, List.append_nil]
    have e1 : (1073741824 : Nat) = (1073741822 + 1) + 1 := by norm_num
    rw [e1, List.take_succ_cons, List.take_succ_cons, List.take_append_eq_append_take,
      List.take_of_length_le (by omega)]
  have hj : 20 ≤ hugeWid - 2 - (if n < 0 then ['-'] else ([] : List Char)).length := by
    rw [hw]; omega
  have hne : (Nat.toDigits 10 n.natAbs).take
      (hugeWid - 2 - (if n < 0 then ['-'] else ([] : List Char)).length) ≠ [] := by
    intro h0
    have := congrArg List.length h0
    rw [List.length_take] at this
    have := List.length_pos.mpr hdec.1
    simp only [List.length_nil] at *
    omega
  rw [Sscanf, htake, doScanf_eval _ _ _ (by split <;> simp) hne
    (fun c hc => hdec.2.1 c (List.mem_of_mem_take hc)) (by simp)]
  unfold ParseInt
  by_cases hn : n < 0
  · have hlow : n < -(2 : Int) ^ 63 := by omega
    have := digitsVal_take_ge _ _ hdec _ hj (2 ^ 63 + 1) (by norm_num) (by omega)
    simp only [hn, if_true, decide_True] at this ⊢
    rw [if_pos (by omega)]
  · have hhigh : (2 : Int) ^ 63 ≤ n := by omega
    have := digitsVal_take_ge _ _ hdec _ hj (2 ^ 63) (by norm_num) (by omega)
    simp only [hn, if_false] at this ⊢
    have e : decide (([] : List Char) = ['-']) = false := by decide
    rw [e]
    simp only [Bool.false_eq_true, if_false]
    rw [if_pos (by omega)]

/-! ## Rejected rules: claims C5 and C6 -/

/-- The result of `nextDate` on a rule that passes the guard of the `d` branch. -/
theorem nextDate_d_branch (now : Time) (date rule : String) (a : Time)
    (ha : Parse date = some a) (hne : rule ≠ "") (hy : rule ≠ "y")
    (hg : rule.utf8ByteSize > 1 ∧ rule.data.head? = some 'd') :
    nextDate now date rule =
      match Sscanf rule with
      | none => .error .badDRule
      | some days =>
        if days < 1 ∨ days > 400 then .error .badInterval
        else
          .ok (stepWhileBefore (fun t => t.AddDate 0 0 days) now
            (loopFuel now (a.AddDate 0 0 days)) (a.AddDate 0 0 days)).Format := by
  simp only [nextDate, ha, hne, hy, hg, and_self, if_true, if_false]

theorem nextDate_unsupported (now : Time) (date rule : String) (a : Time)
    (ha : Parse date = some a) (hne : rule ≠ "") (hy : rule ≠ "y")
    (hg : ¬ (rule.utf8ByteSize > 1 ∧ rule.data.head? = some 'd')) :
    nextDate now date rule = .error .unsupported := by
  simp only [nextDate, ha, hne, hy, hg, if_false]

theorem IsDRule.guard {rule : String} {n : Int} (h : IsDRule rule n) :
    rule.utf8ByteSize > 1 ∧ rule.data.head? = some 'd' := by
  obtain ⟨ws, sgn, ds, rest, hdata, hws, -⟩ := h
  obtain ⟨s, ws', rfl⟩ := List.exists_cons_of_ne_nil hws
  cases hd : rule.data with
  | nil => rw [hd] at hdata; simp at hdata
  | cons c l =>
    rw [hd] at hdata
    cases l with
    | nil =>
      have := congrArg List.length hdata
      have hw : hugeWid = 1073741823 + 1 := by norm_num [hugeWid]
      rw [hw, List.take_succ_cons] at this
      simp at this
    | cons c' l' =>
      have hw : hugeWid = 1073741823 + 1 := by norm_num [hugeWid]
      rw [hw, List.take_succ_cons] at hdata
      simp only [List.cons.injEq] at hdata
      have := utf8ByteSize_ge rule
      rw [hd] at this
      simp only [List.length_cons] at this
      refine ⟨by omega, ?_⟩
      rw [hdata.1]; rfl

/-- C5, the failing input. The rules `d 5abc` and `d 3,7` are not of the form `d <n>`
with one decimal integer, yet `nextDate` accepts them and treats them as `d 5` and
`d 3`: `Sscanf` stops after the number and nothing checks that the rule ends there.
The sibling branch for `y` compares the whole rule, so `y` followed by a blank is
rejected. -/
theorem d_rule_accepts_trailing_text :
    nextDate (Date 2024 1 1 0 0) "20240101" "d 5abc" = .ok "20240106" ∧
    nextDate (Date 2024 1 1 0 0) "20240101" "d 5" = .ok "20240106" ∧
    nextDate (Date 2024 1 1 0 0) "20240101" "d 3,7" = .ok "20240104" ∧
    nextDate (Date 2024 1 1 0 0) "20240101" "d 3" = .ok "20240104" ∧
    nextDate (Date 2024 1 1 0 0) "20240101" "y " = .error .unsupported := by
  decide

/-- What the code does with the syntax of a rule. For a valid anchor and any
reference, a non-empty rule other than `y` fails with an invalid-syntax error (the
unsupported-format error or the malformed-`d`-rule error) exactly when it has not the
shape `IsDRule`: the letter `d`, blanks, an optionally signed run of digits fitting 64
bits, and then anything that does not continue the digits. So `k 2` and `foo` fail,
while `d <n>` followed by such text gives what `d <n>` gives. -/
theorem nextDate_syntax_error_iff (now : Time) (date : String) (anchor : Time)
    (hdate : Parse date = some anchor) :
    (∀ rule : String, rule ≠ "" → rule ≠ "y" →
      ((nextDate now date rule = .error .unsupported ∨
          nextDate now date rule = .error .badDRule) ↔ ¬ ∃ n, IsDRule rule n)) ∧
    nextDate now date "k 2" = .error .unsupported ∧
    nextDate now date "foo" = .error .unsupported ∧
    (∀ (n : Int) (rest : String), -(2 : Int) ^ 63 ≤ n → n < (2 : Int) ^ 63 →
      (∀ c, rest.data.head? = some c → isDigit c = false) →
      nextDate now date ("d " ++ toString n ++ rest) =
        nextDate now date ("d " ++ toString n)) := by
  refine ⟨?_, ?_, ?_, ?_⟩
  · intro rule hne hy
    by_cases hg : rule.utf8ByteSize > 1 ∧ rule.data.head? = some 'd'
    · rw [nextDate_d_branch now date rule anchor hdate hne hy hg]
      cases hs : Sscanf rule with
      | none =>
        simp only [or_true, true_iff]
        rintro ⟨n, hn⟩
        rw [(Sscanf_iff rule n).mpr hn] at hs
        cases hs
      | some days =>
        have hex : ∃ n, IsDRule rule n := ⟨days, (Sscanf_iff rule days).mp hs⟩
        simp only [hex, not_true_eq_false, iff_false, not_or]
        constructor <;> split <;> simp
    · rw [nextDate_unsupported now date rule anchor hdate hne hy hg]
      simp only [true_or, true_iff]
      rintro ⟨n, hn⟩
      exact hg hn.guard
  · exact nextDate_unsupported now date "k 2" anchor hdate (by decide) (by decide) (by decide)
  · exact nextDate_unsupported now date "foo" anchor hdate (by decide) (by decide) (by decide)
  · intro n rest h1 h2 hr
    have e : "d " ++ toString n ++ rest = "d " ++ (toString n ++ rest) :=
      String.append_assoc _ _ _
    obtain ⟨hne, hy, hg⟩ := d_rule_guard (toString n ++ rest)
    obtain ⟨hne', hy', hg'⟩ := d_rule_guard (toString n)
    rw [← e] at hne hy hg
    rw [nextDate_d_branch now date _ anchor hdate hne hy hg,
      nextDate_d_branch now date _ anchor hdate hne' hy' hg',
      Sscanf_numeral n h1 h2 rest hr, Sscanf_d n h1 h2]

/-- The rules `k 2` and `foo` on the anchor 2024-01-01. -/
theorem nextDate_syntax_error_iff_witness :
    Parse "20240101" = some (Date 2024 1 1 0 0) ∧
    nextDate (Date 2024 1 1 0 0) "20240101" "k 2" = .error .unsupported ∧
    nextDate (Date 2024 1 1 0 0) "20240101" "foo" = .error .unsupported :=
  ⟨by decide,
    (nextDate_syntax_error_iff (Date 2024 1 1 0 0) "20240101" (Date 2024 1 1 0 0)
      (by decide)).2.1,
    (nextDate_syntax_error_iff (Date 2024 1 1 0 0) "20240101" (Date 2024 1 1 0 0)
      (by decide)).2.2.1⟩

/-- C6 as stated fails for a number beyond 64 bits: `d 9223372036854775808` fails
with the malformed-`d`-rule error, not with the interval error. -/
theorem interval_overflow_counterexample :
    nextDate (Date 2024 1 1 0 0) "20240101" "d 9223372036854775808" = .error .badDRule := by
  decide

/-- C6, amended. For a valid anchor, any reference and any integer `n`,
`nextDate now anchor "d <n>"` succeeds exactly when `1 ≤ n ≤ 400`; outside that
interval it fails with the interval error when `n` fits a signed 64-bit integer and
with the malformed-`d`-rule error when it does not. -/
theorem nextDate_interval (now : Time) (date : String) (anchor : Time)
    (hdate : Parse date = some anchor) (n : Int) :
    ((∃ r, nextDate now date ("d " ++ toString n) = .ok r) ↔ (1 ≤ n ∧ n ≤ 400)) ∧
    (-(2 : Int) ^ 63 ≤ n → n < (2 : Int) ^ 63 → ¬ (1 ≤ n ∧ n ≤ 400) →
      nextDate now date ("d " ++ toString n) = .error .badInterval) ∧
    ((n < -(2 : Int) ^ 63 ∨ (2 : Int) ^ 63 ≤ n) →
      nextDate now date ("d " ++ toString n) = .error .badDRule) := by
  obtain ⟨hne, hy, hg⟩ := d_rule_guard (toString n)
  have hbr := nextDate_d_branch now date _ anchor hdate hne hy hg
  have hin : -(2 : Int) ^ 63 ≤ n → n < (2 : Int) ^ 63 → ¬ (1 ≤ n ∧ n ≤ 400) →
      nextDate now date ("d " ++ toString n) = .error .badInterval := by
    intro h1 h2 h3
    rw [hbr, Sscanf_d n h1 h2]
    have : n < 1 ∨ n > 400 := by omega
    simp only [this, if_true]
  have hout : (n < -(2 : Int) ^ 63 ∨ (2 : Int) ^ 63 ≤ n) →
      nextDate now date ("d " ++ toString n) = .error .badDRule := by
    intro h
    rw [hbr, Sscanf_overflow n h]
  refine ⟨⟨?_, ?_⟩, hin, hout⟩
  · rintro ⟨r, hr⟩
    by_contra hc
    by_cases hrange : -(2 : Int) ^ 63 ≤ n ∧ n < (2 : Int) ^ 63
    · rw [hin hrange.1 hrange.2 hc] at hr; cases hr
    · rw [hout (by omega)] at hr; cases hr
  · rintro ⟨h1, h2⟩
    obtain ⟨k, -, hk, -⟩ :=
      nextDate_spec now date _ anchor _ hdate (ruleStep_d n h1 h2)
    exact ⟨_, hk⟩

/-- Witness of C6 (amended): the anchor 2024-01-01 with `n = 400`. -/
theorem nextDate_interval_witness :
    Parse "20240101" = some (Date 2024 1 1 0 0) ∧
    ((∃ r, nextDate (Date 2024 1 1 0 0) "20240101" ("d " ++ toString (400 : Int)) = .ok r) ↔
      ((1 : Int) ≤ 400 ∧ (400 : Int) ≤ 400)) :=
  ⟨by decide,
    (nextDate_interval (Date 2024 1 1 0 0) "20240101" (Date 2024 1 1 0 0) (by decide) 400).1⟩

/-! ## The handlers: claims C7, C8 and C10 -/

/-- C7, the failing input. On 2024-02-01 a create request without date and with the
repeat `foo` is accepted and stored with that repeat, so a store holding it is
reachable, although `foo` is not a rule: `nextDate` rejects it for every reference and
every date. The handler calls `nextDate` only when the date is before today. -/
theorem create_stores_invalid_rule (rowid : String → Option Int) :
    addTaskHandler (Date 2024 2 1 0 0) DB.empty
        { ID := "", Date := "", Title := "Task", Comment := "", Repeat := "foo" } =
      (.created 1,
        { rows := [{ id := 1, Date := "20240201", Title := "Task", Comment := "",
                     Repeat := "foo" }],
          seq := 1 }) ∧
    Reachable rowid
      { rows := [{ id := 1, Date := "20240201", Title := "Task", Comment := "",
                   Repeat := "foo" }],
        seq := 1 } ∧
    ∀ (now : Time) (date : String), ∃ e, nextDate now date "foo" = .error e := by
  have h : addTaskHandler (Date 2024 2 1 0 0) DB.empty
        { ID := "", Date := "", Title := "Task", Comment := "", Repeat := "foo" } =
      (.created 1,
        { rows := [{ id := 1, Date := "20240201", Title := "Task", Comment := "",
                     Repeat := "foo" }],
          seq := 1 }) := by decide
  refine ⟨h, ?_, ?_⟩
  · have hr := @Reachable.create rowid (Date 2024 2 1 0 0)
      { ID := "", Date := "", Title := "Task", Comment := "", Repeat := "foo" } DB.empty
      Reachable.empty
    rw [h] at hr
    exact hr
  · intro now date
    cases hp : Parse date with
    | none => exact ⟨.badDate, by simp [nextDate, hp]⟩
    | some a =>
      exact ⟨.unsupported,
        nextDate_unsupported now date "foo" a hp (by decide) (by decide) (by decide)⟩

/-- Scenarios 4 to 6: creating on 2024-02-01 (here at 15:30 in a zone three hours east
of UTC) a task without date, a task dated 2023-12-20 without repeat, and a task dated
2024-01-02 with the repeat `y`. -/
theorem scenarios_4_5_6 :
    (addTaskHandler (Date 2024 2 1 55800000000000 10800) DB.empty
        { ID := "", Date := "", Title := "A", Comment := "", Repeat := "" }).2.rows =
      [{ id := 1, Date := "20240201", Title := "A", Comment := "", Repeat := "" }] ∧
    (addTaskHandler (Date 2024 2 1 55800000000000 10800) DB.empty
        { ID := "", Date := "20231220", Title := "B", Comment := "", Repeat := "" }).2.rows =
      [{ id := 1, Date := "20240201", Title := "B", Comment := "", Repeat := "" }] ∧
    (addTaskHandler (Date 2024 2 1 55800000000000 10800) DB.empty
        { ID := "", Date := "20240102", Title := "C", Comment := "", Repeat := "y" }).2.rows =
      [{ id := 1, Date := "20250102", Title := "C", Comment := "", Repeat := "y" }] := by
  decide

/-- What an accepted create request stores, case by case. -/
theorem addTaskHandler_created {clock today : Time} {db db' : DB} {task : Task} {id : Int}
    (htoday : Parse clock.Format = some today)
    (h : addTaskHandler clock db task = (.created id, db')) :
    task.Title ≠ "" ∧
    ∃ (stored : String) (d : Time),
      Parse (if task.Date = "" then clock.Format else task.Date) = some d ∧
      id = db.seq + 1 ∧
      db' = { rows := db.rows ++ [{ id := id, Date := stored, Title := task.Title,
                                    Comment := task.Comment, Repeat := task.Repeat }],
              seq := id } ∧
      ((d.Before today = false ∧
          stored = (if task.Date = "" then clock.Format else task.Date)) ∨
        (d.Before today = true ∧ task.Repeat = "" ∧ stored = clock.Format) ∨
        (d.Before today = true ∧ task.Repeat ≠ "" ∧
          nextDate today (if task.Date = "" then clock.Format else task.Date) task.Repeat =
            .ok stored)) := by
  unfold addTaskHandler at h
  by_cases ht : task.Title = ""
  · simp [ht] at h
  refine ⟨ht, ?_⟩
  simp only [ht, if_false, htoday] at h
  cases hp : Parse (if task.Date = "" then clock.Format else task.Date) with
  | none => simp [hp] at h
  | some d =>
    simp only [hp] at h
    by_cases hb : d.Before today = true
    · simp only [hb, if_true] at h
      by_cases hr : task.Repeat = ""
      · simp only [hr, if_true, DB.insert, Prod.mk.injEq, Response.created.injEq] at h
        refine ⟨clock.Format, d, rfl, h.1.symm, ?_, Or.inr (Or.inl ⟨hb, hr, rfl⟩)⟩
        rw [← h.2, ← h.1, hr]
      · simp only [hr, if_false] at h
        cases hn : nextDate today (if task.Date = "" then clock.Format else task.Date)
            task.Repeat with
        | error e => simp [hn] at h
        | ok next =>
          simp only [hn, DB.insert, Prod.mk.injEq, Response.created.injEq] at h
          refine ⟨next, d, rfl, h.1.symm, ?_, Or.inr (Or.inr ⟨hb, hr, rfl⟩)⟩
          rw [← h.2, ← h.1]
    · have hb' : d.Before today = false := by simpa using hb
      simp only [hb', Bool.false_eq_true, if_false, DB.insert, Prod.mk.injEq,
        Response.created.injEq] at h
      refine ⟨_, d, rfl, h.1.symm, ?_, Or.inl ⟨hb', rfl⟩⟩
      rw [← h.2, ← h.1]

theorem Before_irrefl (t : Time) : t.Before t = false := by
  simp [Time.Before]

/-- C8. On a clock whose calendar date is `today`, every accepted create request adds one
task whose date is: today when the supplied date is empty; the supplied date when it
is not before today; today when it is before today and repeat is empty; and the
result of `nextDate today date repeat` when it is before today and repeat is not
empty. Title, comment and repeat are stored as supplied. -/
theorem addTaskHandler_schedule (clock today : Time) (db db' : DB) (task : Task) (id : Int)
    (htoday : Parse clock.Format = some today)
    (h : addTaskHandler clock db task = (.created id, db')) :
    ∃ stored : String,
      db'.rows = db.rows ++ [{ id := id, Date := stored, Title := task.Title,
                               Comment := task.Comment, Repeat := task.Repeat }] ∧
      (task.Date = "" → stored = clock.Format) ∧
      (task.Date ≠ "" → ∃ d, Parse task.Date = some d ∧
        (d.Before today = false → stored = task.Date) ∧
        (d.Before today = true → task.Repeat = "" → stored = clock.Format) ∧
        (d.Before today = true → task.Repeat ≠ "" →
          nextDate today task.Date task.Repeat = .ok stored)) := by
  obtain ⟨-, stored, d, hd, -, hdb, hcases⟩ := addTaskHandler_created htoday h
  refine ⟨stored, by rw [hdb], ?_, ?_⟩
  · intro he
    simp only [he, if_true] at hd hcases
    rw [htoday, Option.some.injEq] at hd
    subst hd
    simpa [Before_irrefl] using hcases
  · intro hne
    simp only [hne, if_false] at hd hcases
    refine ⟨d, hd, ?_, ?_, ?_⟩
    · intro hb
      rcases hcases with h1 | h1 | h1
      · exact h1.2
      · rw [hb] at h1; cases h1.1
      · rw [hb] at h1; cases h1.1
    · intro hb hr
      rcases hcases with h1 | h1 | h1
      · rw [hb] at h1; cases h1.1
      · exact h1.2.2
      · exact absurd hr h1.2.1
    · intro hb hr
      rcases hcases with h1 | h1 | h1
      · rw [hb] at h1; cases h1.1
      · exact absurd h1.2.1 hr
      · exact h1.2.2

/-- Witness of C8: the create request of scenario 6 on 2024-02-01. -/
theorem addTaskHandler_schedule_witness :
    Parse (Date 2024 2 1 0 0).Format = some (Date 2024 2 1 0 0) ∧
    addTaskHandler (Date 2024 2 1 0 0) DB.empty
        { ID := "", Date := "20240102", Title := "C", Comment := "", Repeat := "y" } =
      (.created 1,
        { rows := [{ id := 1, Date := "20250102", Title := "C", Comment := "",
                     Repeat := "y" }], seq := 1 }) ∧
    ∃ stored : String,
      [{ id := 1, Date := "20250102", Title := "C", Comment := "", Repeat := "y" }] =
        DB.empty.rows ++ [({ id := 1, Date := stored, Title := "C", Comment := "",
                             Repeat := "y" } : Row)] ∧
      (("20240102" : String) = "" → stored = (Date 2024 2 1 0 0).Format) ∧
      (("20240102" : String) ≠ "" → ∃ d, Parse "20240102" = some d ∧
        (d.Before (Date 2024 2 1 0 0) = false → stored = "20240102") ∧
        (d.Before (Date 2024 2 1 0 0) = true → ("y" : String) = "" →
          stored = (Date 2024 2 1 0 0).Format) ∧
        (d.Before (Date 2024 2 1 0 0) = true → ("y" : String) ≠ "" →
          nextDate (Date 2024 2 1 0 0) "20240102" "y" = .ok stored)) :=
  ⟨by decide, by decide,
    addTaskHandler_schedule (Date 2024 2 1 0 0) (Date 2024 2 1 0 0) DB.empty
      { rows := [{ id := 1, Date := "20250102", Title := "C", Comment := "", Repeat := "y" }],
        seq := 1 }
      { ID := "", Date := "20240102", Title := "C", Comment := "", Repeat := "y" } 1
      (by decide) (by decide)⟩

/-- C10, the failing input. A task dated 2024-01-09 with the repeat `d 1` is completed
on 2024-01-10. At 12:00 UTC the handler stores 2024-01-11, at 00:00 UTC of the same
day it stores 2024-01-10: it passes the current instant to `nextDate`, and the
candidate 2024-01-10 (midnight) is before noon. With today's calendar date as
reference `nextDate` gives 2024-01-10, and that is what `addTaskHandler`, which first
cuts the clock down to its date, stores for the same task at 12:00 UTC. -/
theorem done_depends_on_time_of_day :
    taskDoneHandler (fun s => if s = "1" then some 1 else none)
        (Date 2024 1 10 43200000000000 0)
        { rows := [{ id := 1, Date := "20240109", Title := "T", Comment := "",
                     Repeat := "d 1" }], seq := 1 } "1" =
      (.done, { rows := [{ id := 1, Date := "20240111", Title := "T", Comment := "",
                           Repeat := "d 1" }], seq := 1 }) ∧
    taskDoneHandler (fun s => if s = "1" then some 1 else none)
        (Date 2024 1 10 0 0)
        { rows := [{ id := 1, Date := "20240109", Title := "T", Comment := "",
                     Repeat := "d 1" }], seq := 1 } "1" =
      (.done, { rows := [{ id := 1, Date := "20240110", Title := "T", Comment := "",
                           Repeat := "d 1" }], seq := 1 }) ∧
    (Date 2024 1 10 43200000000000 0).Format = "20240110" ∧
    (Date 2024 1 10 0 0).Format = "20240110" ∧
    Parse "20240110" = some (Date 2024 1 10 0 0) ∧
    nextDate (Date 2024 1 10 0 0) "20240109" "d 1" = .ok "20240110" ∧
    addTaskHandler (Date 2024 1 10 43200000000000 0) DB.empty
        { ID := "", Date := "20240109", Title := "T", Comment := "", Repeat := "d 1" } =
      (.created 1, { rows := [{ id := 1, Date := "20240110", Title := "T", Comment := "",
                                Repeat := "d 1" }], seq := 1 }) := by
  decide

theorem DB.find_some {db : DB} {key : Option Int} {task : Row} (h : db.find key = some task) :
    key = some task.id ∧ task ∈ db.rows := by
  unfold DB.find at h
  cases key with
  | none => cases h
  | some k =>
    simp only at h
    have h1 := List.find?_some h
    have h2 := List.mem_of_find?_eq_some h
    simp only [decide_eq_true_eq] at h1
    exact ⟨by rw [h1], h2⟩

/-- What `taskDoneHandler` does with a stored task. Completing a task whose repeat is
empty deletes it (every row with its id) and leaves the other rows as they are;
completing a task whose repeat is not empty, when `nextDate clock date repeat` succeeds
with `next` for the instant `clock` that the handler passes, sets the date of that
task to `next` and leaves its other fields and all other rows as they are. -/
theorem taskDoneHandler_policy (rowid : String → Option Int) (clock : Time) (db : DB)
    (id : String) (task : Row) (hid : id ≠ "") (hfind : db.find (rowid id) = some task) :
    (task.Repeat = "" →
      taskDoneHandler rowid clock db id =
        (.done, { rows := db.rows.filter (fun r => r.id ≠ task.id), seq := db.seq })) ∧
    (∀ next : String, task.Repeat ≠ "" → nextDate clock task.Date task.Repeat = .ok next →
      taskDoneHandler rowid clock db id =
        (.done, { rows := db.rows.map (fun r =>
                    if r.id = task.id then { r with Date := next } else r),
                  seq := db.seq })) := by
  obtain ⟨hkey, -⟩ := DB.find_some hfind
  rw [hkey] at hfind
  constructor
  · intro hr
    simp only [taskDoneHandler, hid, if_false, hkey, hfind, hr, if_true, DB.delete]
  · intro next hr hn
    simp only [taskDoneHandler, hid, if_false, hkey, hfind, hr, hn, DB.setDate]

/-- The completion at 12:00 UTC on 2024-01-10 as an instance of the handler's policy. -/
theorem taskDoneHandler_policy_witness :
    ("1" : String) ≠ "" ∧
    ({ rows := [{ id := 1, Date := "20240109", Title := "T", Comment := "",
                  Repeat := "d 1" }], seq := 1 } : DB).find (some 1) =
      some { id := 1, Date := "20240109", Title := "T", Comment := "", Repeat := "d 1" } ∧
    ((("d 1" : String) = "" →
      taskDoneHandler (fun s => if s = "1" then some 1 else none)
          (Date 2024 1 10 43200000000000 0)
          { rows := [{ id := 1, Date := "20240109", Title := "T", Comment := "",
                       Repeat := "d 1" }], seq := 1 } "1" =
        (.done, { rows := List.filter (fun r => r.id ≠ 1)
                    [({ id := 1, Date := "20240109", Title := "T", Comment := "",
                        Repeat := "d 1" } : Row)],
                  seq := 1 })) ∧
    (∀ next : String, ("d 1" : String) ≠ "" →
      nextDate (Date 2024 1 10 43200000000000 0) "20240109" "d 1" = .ok next →
      taskDoneHandler (fun s => if s = "1" then some 1 else none)
          (Date 2024 1 10 43200000000000 0)
          { rows := [{ id := 1, Date := "20240109", Title := "T", Comment := "",
                       Repeat := "d 1" }], seq := 1 } "1" =
        (.done, { rows := List.map (fun r => if r.id = 1 then { r with Date := next } else r)
                    [({ id := 1, Date := "20240109", Title := "T", Comment := "",
                        Repeat := "d 1" } : Row)],
                  seq := 1 }))) :=
  ⟨by decide, by decide,
    taskDoneHandler_policy (fun s => if s = "1" then some 1 else none)
      (Date 2024 1 10 43200000000000 0)
      { rows := [{ id := 1, Date := "20240109", Title := "T", Comment := "",
                   Repeat := "d 1" }], seq := 1 } "1"
      { id := 1, Date := "20240109", Title := "T", Comment := "", Repeat := "d 1" }
      (by decide) (by decide)⟩

/-! ## Date strings in string order -/

theorem digitsVal_cons (c : Char) (l : List Char) :
    digitsVal (c :: l) = digitVal c * 10 ^ l.length + digitsVal l := by
  have := digitsVal_append_list [c] l
  simpa [digitsVal] using this

theorem digitVal_lt {a b : Char} (ha : isDigit a = true) (h : a < b) :
    digitVal a < digitVal b := by
  have h1 : 48 ≤ a.toNat := by
    simp only [isDigit, Bool.and_eq_true, decide_eq_true_eq] at ha
    exact ha.1
  have h2 : a.toNat < b.toNat := h
  unfold digitVal; omega

/-- On digit strings of one length the string order is the order of the numbers. -/
theorem digitsVal_lt_of_less : ∀ (l r : List Char), lessChars l r = true →
    l.length = r.length → (∀ c ∈ l, isDigit c = true) → (∀ c ∈ r, isDigit c = true) →
    digitsVal l < digitsVal r := by
  intro l
  induction l with
  | nil =>
    intro r h hlen
    cases r with
    | nil => simp [lessChars] at h
    | cons b bs => simp at hlen
  | cons a as ih =>
    intro r h hlen hl hr
    cases r with
    | nil => simp at hlen
    | cons b bs =>
      simp only [List.length_cons, Nat.add_right_cancel_iff] at hlen
      have has := digitsVal_lt as (fun c hc => hl c (List.mem_cons_of_mem _ hc))
      rw [hlen] at has
      rw [digitsVal_cons, digitsVal_cons, hlen]
      simp only [lessChars] at h
      by_cases hab : a < b
      · have hv := digitVal_lt (hl a (List.mem_cons_self _ _)) hab
        have : (digitVal a + 1) * 10 ^ bs.length ≤ digitVal b * 10 ^ bs.length :=
          Nat.mul_le_mul_right _ hv
        rw [add_mul, one_mul] at this
        omega
      · by_cases hba : b < a
        · simp [hab, hba] at h
        · simp only [hab, hba, if_false] at h
          have e : a = b := le_antisymm (not_lt.mp hba) (not_lt.mp hab)
          subst e
          have := ih bs h hlen (fun c hc => hl c (List.mem_cons_of_mem _ hc))
            (fun c hc => hr c (List.mem_cons_of_mem _ hc))
          omega

theorem daysSinceEpoch_mono {y z : Int} (h : y ≤ z) : daysSinceEpoch y ≤ daysSinceEpoch z := by
  rcases eq_or_lt_of_le h with h | h
  · rw [h]
  · have := daysSinceEpoch_lt h; omega

/-- Existing days in calendar order have increasing day numbers. -/
theorem dayNumber_lt {y m d y' m' d' : Int} (h : validDate y m d) (h' : validDate y' m' d')
    (hlt : y < y' ∨ (y = y' ∧ (m < m' ∨ (m = m' ∧ d < d')))) :
    dayNumber y m d < dayNumber y' m' d' := by
  have hr := dayOfYear_range y m d h
  have hr' := dayOfYear_range y' m' d' h'
  unfold dayNumber
  rcases hlt with hy | ⟨rfl, hm | ⟨rfl, hd⟩⟩
  · have h1 := daysSinceEpoch_succ y
    have h2 := daysSinceEpoch_mono (show y + 1 ≤ y' by omega)
    omega
  · have := monthStart_lt y m m' h.1 hm h'.2.1
    rw [dayOfYear_eq, dayOfYear_eq]
    have := h.2.2.2
    have := h'.2.2.1
    omega
  · rw [dayOfYear_eq, dayOfYear_eq]; omega

theorem Date_midnight_ns (y m d : Int) (h : validDate y m d) :
    (Date y m d 0 0).ns = dayNumber y m d * nsPerDay := by
  rw [Date_ns y m d 0 0 h.1 h.2.1]; simp

/-- Date strings that parse are ordered as strings the way their days are ordered in
time. -/
theorem Parse_lt {s t : String} {a b : Time} (hs : Parse s = some a) (ht : Parse t = some b)
    (h : stringLess s t = true) : a.ns < b.ns := by
  obtain ⟨y0, y1, y2, y3, m0, m1, d0, d1, hsd, hy0, hy1, hy2, hy3, hm0, hm1, hd0, hd1, hv,
    rfl⟩ := Parse_spec hs
  obtain ⟨y0', y1', y2', y3', m0', m1', d0', d1', htd, hy0', hy1', hy2', hy3', hm0', hm1',
    hd0', hd1', hv', rfl⟩ := Parse_spec ht
  have hlt : lessChars s.data t.data = true := h
  rw [hsd, htd] at hlt
  have hnum := digitsVal_lt_of_less _ _ hlt rfl
    (by simp only [List.mem_cons, List.mem_singleton, List.not_mem_nil, or_false]
        rintro c (rfl | rfl | rfl | rfl | rfl | rfl | rfl | rfl) <;> assumption)
    (by simp only [List.mem_cons, List.mem_singleton, List.not_mem_nil, or_false]
        rintro c (rfl | rfl | rfl | rfl | rfl | rfl | rfl | rfl) <;> assumption)
  rw [Date_midnight_ns _ _ _ hv, Date_midnight_ns _ _ _ hv']
  have hday := dayNumber_lt hv hv' (by
    have b1 := isDigit_val hm0
    have b2 := isDigit_val hm1
    have b3 := isDigit_val hd0
    have b4 := isDigit_val hd1
    have b1' := isDigit_val hm0'
    have b2' := isDigit_val hm1'
    have b3' := isDigit_val hd0'
    have b4' := isDigit_val hd1'
    simp only [digitsVal, List.foldl] at hnum ⊢
    omega)
  have hpos := zero_lt_nsPerDay
  nlinarith

theorem list_length_two (l : List Char) (h : l.length = 2) : ∃ a b, l = [a, b] := by
  rcases l with _ | ⟨a, _ | ⟨b, _ | ⟨c, l⟩⟩⟩ <;> simp at h
  exact ⟨a, b, rfl⟩

theorem list_length_four (l : List Char) (h : l.length = 4) : ∃ a b c d, l = [a, b, c, d] := by
  rcases l with _ | ⟨a, _ | ⟨b, _ | ⟨c, _ | ⟨d, _ | ⟨e, l⟩⟩⟩⟩⟩ <;> simp at h
  exact ⟨a, b, c, d, rfl⟩

/-- The formatted date of an existing day with a four-digit year parses to the
midnight UTC of that day. -/
theorem Parse_Format_ok (c : Time) (h0 : 0 ≤ c.Date.1) (h1 : c.Date.1 ≤ 9999) :
    Parse c.Format = some (Date c.Date.1 c.Date.2.1 c.Date.2.2 0 0) := by
  have hv := Date_valid c
  have hfmt : c.Format =
      String.mk (appendInt c.Date.1 4 ++ appendInt c.Date.2.1 2 ++ appendInt c.Date.2.2 2) := rfl
  generalize c.Date.1 = y at *
  generalize c.Date.2.1 = m at *
  generalize c.Date.2.2 = d at *
  obtain ⟨hy1, hy2, hy3⟩ := appendInt_short y 4 (by norm_num) h0 (by omega)
  obtain ⟨hm1, hm2, hm3⟩ := appendInt_short m 2 (by norm_num) (by have := hv.1; omega)
    (by have := hv.2.1; omega)
  have hdd := validDate_day_le hv
  obtain ⟨hd1, hd2, hd3⟩ := appendInt_short d 2 (by norm_num) (by omega) (by omega)
  obtain ⟨y0, y1, y2, y3, ey⟩ := list_length_four _ hy1
  obtain ⟨m0, m1, em⟩ := list_length_two _ hm1
  obtain ⟨d0, d1, ed⟩ := list_length_two _ hd1
  rw [ey] at hy2 hy3
  rw [em] at hm2 hm3
  rw [ed] at hd2 hd3
  have e1 : digitsVal [m0, m1] = digitVal m0 * 10 + digitVal m1 := by
    simp [digitsVal]; ring
  have e2 : digitsVal [d0, d1] = digitVal d0 * 10 + digitVal d1 := by
    simp [digitsVal]; ring
  rw [e1] at hm3
  rw [e2] at hd3
  have hmr : ¬ (m ≤ 0 ∨ 12 < m) := by have := hv.1; have := hv.2.1; omega
  have hdr : ¬ (d < 1 ∨ d > daysIn m y) := by have := hv.2.2.1; have := hv.2.2.2; omega
  rw [hfmt, ey, em, ed]
  simp only [Parse, List.cons_append, List.nil_append, List.append_nil, getnum,
    hy2 y0 (by simp), hy2 y1 (by simp), hy2 y2 (by simp), hy2 y3 (by simp),
    hm2 m0 (by simp), hm2 m1 (by simp), hd2 d0 (by simp), hd2 d1 (by simp),
    Bool.and_self, if_true, hy3, hm3, hd3, hmr, hdr, if_false, ne_eq, not_true_eq_false]

/-! ## Created tasks are not dated before today: claim C9 -/

theorem lessChars_irrefl (l : List Char) : lessChars l l = false := by
  induction l with
  | nil => rfl
  | cons a l ih => simp [lessChars, ih]

/-- The step of a rule moves a time by at most 400 days. -/
theorem ruleStep_le {rule : String} {step : Time → Time} (h : ruleStep rule = some step)
    (t : Time) : (step t).ns ≤ t.ns + 400 * nsPerDay := by
  have hpos := zero_lt_nsPerDay
  unfold ruleStep at h
  split at h
  · cases h
    obtain ⟨n, -, hn2, hn⟩ := AddDate_year t
    simp only [hn]
    nlinarith
  · split at h
    · split at h
      · cases h
      · split at h
        · cases h
        · rename_i days _ hr
          cases h
          simp only [AddDate_days]
          have : days ≤ 400 := by omega
          nlinarith
    · cases h

theorem year_lt_of_absDay (t : Time) (Y : Int) (h : t.absDay < daysSinceEpoch Y) :
    t.Date.1 < Y := by
  have hs := absYear_sum t.absDay
  have hy := absYear_yday t.absDay
  by_contra hc
  have := daysSinceEpoch_mono (show Y ≤ (absYear t.absDay).1 by simpa [Time.Date] using hc)
  omega

theorem year_ge_of_absDay (t : Time) (Y : Int) (h : daysSinceEpoch Y ≤ t.absDay) :
    Y ≤ t.Date.1 := by
  have hs := absYear_sum t.absDay
  have hy := absYear_yday t.absDay
  have hsucc := daysSinceEpoch_succ (absYear t.absDay).1
  by_contra hc
  have : (absYear t.absDay).1 + 1 ≤ Y := by
    have : ¬ Y ≤ (absYear t.absDay).1 := by simpa [Time.Date] using hc
    omega
  have := daysSinceEpoch_mono this
  omega

/-- A midnight UTC is a whole number of days after the epoch. -/
theorem midnight_ns (t : Time) (h1 : t.offset = 0) (h2 : t.clock = 0) :
    t.ns = t.absDay * nsPerDay := by
  have := wall_split t
  simp only [Time.wall, h1, h2] at this
  omega

/-- A candidate of `nextDate` that is not more than 400 days after a day of the years 0
to 9997, and not before a day of the year 0 or later, has a four-digit year. -/
theorem candidate_year (c : Time) (hc1 : c.offset = 0) (hc2 : c.clock = 0)
    (y m d : Int) (hv : validDate y m d) (hy : y ≤ 9997)
    (hup : c.ns < (Date y m d 0 0).ns + 400 * nsPerDay)
    (y' m' d' : Int) (hv' : validDate y' m' d') (hy' : 0 ≤ y')
    (hlow : (Date y' m' d' 0 0).ns ≤ c.ns) :
    0 ≤ c.Date.1 ∧ c.Date.1 ≤ 9999 := by
  have hpos := zero_lt_nsPerDay
  have hcn := midnight_ns c hc1 hc2
  rw [Date_midnight_ns y m d hv] at hup
  rw [Date_midnight_ns y' m' d' hv'] at hlow
  have hr := dayOfYear_range y m d hv
  have hr' := dayOfYear_range y' m' d' hv'
  constructor
  · apply year_ge_of_absDay
    have h1 := daysSinceEpoch_mono hy'
    have h2 : daysSinceEpoch y' ≤ dayNumber y' m' d' := by unfold dayNumber; omega
    have : dayNumber y' m' d' * nsPerDay ≤ c.absDay * nsPerDay := by omega
    have := le_of_mul_le_mul_right this hpos
    omega
  · have : c.Date.1 < 10000 := by
      apply year_lt_of_absDay
      have h1 := daysSinceEpoch_succ y
      have h2 := daysSinceEpoch_mono (show y + 1 ≤ 9998 by omega)
      have h3 := daysSinceEpoch_add 9998 2
      norm_num at h3
      have h4 : dayNumber y m d < daysSinceEpoch 9998 := by unfold dayNumber; omega
      have : c.absDay * nsPerDay < (dayNumber y m d + 400) * nsPerDay := by
        rw [add_mul]; omega
      have := lt_of_mul_lt_mul_right this (le_of_lt hpos)
      omega
    omega

/-- The result of `nextDate` for a reference of the years 0 to 9997 and an anchor
before the reference parses back, to a time that is not before the reference. -/
theorem nextDate_parses_back (today : Time) (date rule stored : String) (d : Time)
    (ty tm td : Int) (hv : validDate ty tm td) (hy : ty ≤ 9997)
    (htoday : today = Date ty tm td 0 0)
    (hd : Parse date = some d) (hb : d.Before today = true)
    (hn : nextDate today date rule = .ok stored) :
    ∃ c : Time, Parse stored = some c ∧ c.Before today = false := by
  obtain ⟨step, hs⟩ := Option.isSome_iff_exists.mp
    ((nextDate_ok_iff today date rule d hd).mp ⟨stored, hn⟩)
  obtain ⟨k, hk, hres, hnb, hmin⟩ := nextDate_spec today date rule d step hd hs
  rw [hn, Except.ok.injEq] at hres
  obtain ⟨k', rfl⟩ : ∃ k', k = k' + 1 := ⟨k - 1, by omega⟩
  have hmid := iterate_midnight hs hd (k' + 1)
  have hprev : (step^[k'] d).ns < today.ns := by
    rw [← Before_iff]
    cases k' with
    | zero => simpa using hb
    | succ j => exact hmin (j + 1) (by omega) (by omega)
  have hstep : (step^[k' + 1] d).ns ≤ (step^[k'] d).ns + 400 * nsPerDay := by
    rw [Function.iterate_succ_apply']
    exact ruleStep_le hs _
  have hadv := iterate_advances step (ruleStep_advances hs) d (k' + 1)
  have hpos := zero_lt_nsPerDay
  obtain ⟨y', m', d', hy0, -, hv', rfl⟩ := Parse_civil hd
  have hyear := candidate_year (step^[k' + 1] (Date y' m' d' 0 0)) hmid.1 hmid.2 ty tm td hv hy
    (by rw [← htoday]; omega) y' m' d' hv' hy0
    (by have : (0 : Int) ≤ ((k' + 1 : Nat) : Int) * nsPerDay := by positivity
        omega)
  refine ⟨step^[k' + 1] (Date y' m' d' 0 0), ?_, hnb⟩
  rw [hres, Parse_Format_ok _ hyear.1 hyear.2, ← midnight_eq _ hmid.1 hmid.2]

/-- C9 as stated fails when today is within 400 days of the year 10000: on
9998-12-31 a task dated 9998-12-30 with the repeat `d 400` is stored with the date
`100000203` (3 February 10000), which as a string is less than `99981231`. -/
theorem year_10000_counterexample :
    addTaskHandler (Date 9998 12 31 0 0) DB.empty
        { ID := "", Date := "99981230", Title := "T", Comment := "", Repeat := "d 400" } =
      (.created 1,
        { rows := [{ id := 1, Date := "100000203", Title := "T", Comment := "",
                     Repeat := "d 400" }], seq := 1 }) ∧
    (Date 9998 12 31 0 0).Format = "99981231" ∧
    stringLess "100000203" "99981231" = true := by
  decide

/-- C9, amended. On a clock whose year is at most 9997, every accepted create request
appends one task whose date string is not less than today's `YYYYMMDD` string in
string order; and when the supplied date is today's string, the stored date is today's
string, whatever the repeat. -/
theorem addTaskHandler_not_before_today (clock : Time) (db db' : DB) (task : Task) (id : Int)
    (hyear : clock.Date.1 ≤ 9997)
    (h : addTaskHandler clock db task = (.created id, db')) :
    ∃ stored : String,
      db'.rows = db.rows ++ [{ id := id, Date := stored, Title := task.Title,
                               Comment := task.Comment, Repeat := task.Repeat }] ∧
      stringLess stored clock.Format = false ∧
      (task.Date = clock.Format → stored = clock.Format) := by
  obtain ⟨today, htoday⟩ : ∃ today, Parse clock.Format = some today := by
    cases hp : Parse clock.Format with
    | none =>
      unfold addTaskHandler at h
      by_cases ht : task.Title = "" <;> simp [ht, hp] at h
    | some t => exact ⟨t, rfl⟩
  obtain ⟨-, stored, d, hd, -, hdb, hcases⟩ := addTaskHandler_created htoday h
  have htd := (Parse_Format_date clock today htoday).1
  have hv := Date_valid clock
  refine ⟨stored, by rw [hdb], ?_, ?_⟩
  · rcases hcases with ⟨hb, hst⟩ | ⟨-, -, hst⟩ | ⟨hb, -, hn⟩
    · by_contra hlt
      have hlt : stringLess stored clock.Format = true := by simpa using hlt
      rw [← hst] at hd
      have := Parse_lt hd htoday hlt
      simp only [Time.Before, decide_eq_false_iff_not] at hb
      omega
    · rw [hst]; exact lessChars_irrefl _
    · obtain ⟨c, hc, hcb⟩ := nextDate_parses_back today _ _ stored d _ _ _ hv hyear htd hd hb hn
      by_contra hlt
      have hlt : stringLess stored clock.Format = true := by simpa using hlt
      have := Parse_lt hc htoday hlt
      simp only [Time.Before, decide_eq_false_iff_not] at hcb
      omega
  · intro he
    by_cases hempty : task.Date = ""
    · simp only [hempty, if_true] at hd hcases
      rw [htoday, Option.some.injEq] at hd
      subst hd
      simpa [Before_irrefl] using hcases
    · simp only [hempty, if_false] at hd hcases
      rw [he, htoday, Option.some.injEq] at hd
      subst hd
      rw [he] at hcases
      simpa [Before_irrefl] using hcases

/-- Witness of C9 (amended): a create request dated today with the repeat `d 1`, on
2024-02-01. -/
theorem addTaskHandler_not_before_today_witness :
    (Date 2024 2 1 0 0).Date.1 ≤ 9997 ∧
    addTaskHandler (Date 2024 2 1 0 0) DB.empty
        { ID := "", Date := "20240201", Title := "F", Comment := "", Repeat := "d 1" } =
      (.created 1,
        { rows := [{ id := 1, Date := "20240201", Title := "F", Comment := "",
                     Repeat := "d 1" }], seq := 1 }) ∧
    ∃ stored : String,
      [({ id := 1, Date := "20240201", Title := "F", Comment := "", Repeat := "d 1" } : Row)] =
        DB.empty.rows ++ [({ id := 1, Date := stored, Title := "F", Comment := "",
                             Repeat := "d 1" } : Row)] ∧
      stringLess stored (Date 2024 2 1 0 0).Format = false ∧
      (("20240201" : String) = (Date 2024 2 1 0 0).Format →
        stored = (Date 2024 2 1 0 0).Format) :=
  ⟨by decide, by decide,
    addTaskHandler_not_before_today (Date 2024 2 1 0 0) DB.empty
      { rows := [{ id := 1, Date := "20240201", Title := "F", Comment := "", Repeat := "d 1" }],
        seq := 1 }
      { ID := "", Date := "20240201", Title := "F", Comment := "", Repeat := "d 1" } 1
      (by decide) (by decide)⟩

/-! ## Create rejects bad required fields: claim C11 -/

/-- `time.Parse` with the layout `20060102` accepts exactly the strict `YYYYMMDD`
strings. -/
theorem Parse_isSome_iff (s : String) : (∃ a, Parse s = some a) ↔ IsDateString s := by
  constructor
  · rintro ⟨a, ha⟩
    obtain ⟨y0, y1, y2, y3, m0, m1, d0, d1, h⟩ := Parse_spec ha
    exact ⟨y0, y1, y2, y3, m0, m1, d0, d1, h.1, h.2.1, h.2.2.1, h.2.2.2.1, h.2.2.2.2.1,
      h.2.2.2.2.2.1, h.2.2.2.2.2.2.1, h.2.2.2.2.2.2.2.1, h.2.2.2.2.2.2.2.2.1,
      h.2.2.2.2.2.2.2.2.2.1⟩
  · rintro ⟨y0, y1, y2, y3, m0, m1, d0, d1, hdata, hy0, hy1, hy2, hy3, hm0, hm1, hd0, hd1, hv⟩
    have e1 : digitsVal [m0, m1] = digitVal m0 * 10 + digitVal m1 := by
      simp [digitsVal]; ring
    have e2 : digitsVal [d0, d1] = digitVal d0 * 10 + digitVal d1 := by
      simp [digitsVal]; ring
    rw [e1, e2] at hv
    have hmr : ¬ (((digitVal m0 * 10 + digitVal m1 : Nat) : Int) ≤ 0 ∨
        12 < ((digitVal m0 * 10 + digitVal m1 : Nat) : Int)) := by
      have := hv.1; have := hv.2.1; omega
    have hdr : ¬ (((digitVal d0 * 10 + digitVal d1 : Nat) : Int) < 1 ∨
        ((digitVal d0 * 10 + digitVal d1 : Nat) : Int) >
          daysIn ((digitVal m0 * 10 + digitVal m1 : Nat) : Int)
            ((digitsVal [y0, y1, y2, y3] : Nat) : Int)) := by
      have := hv.2.2.1; have := hv.2.2.2; omega
    refine ⟨Date (digitsVal [y0, y1, y2, y3] : Nat) (digitVal m0 * 10 + digitVal m1 : Nat)
      (digitVal d0 * 10 + digitVal d1 : Nat) 0 0, ?_⟩
    simp only [Parse, hdata, getnum, hy0, hy1, hy2, hy3, hm0, hm1, hd0, hd1, Bool.and_self,
      if_true, hmr, hdr, if_false, ne_eq, not_true_eq_false]

theorem Parse_none_iff (s : String) : Parse s = none ↔ ¬ IsDateString s := by
  rw [← Parse_isSome_iff]
  cases h : Parse s with
  | none => simp
  | some a => simp

/-- The rejected dates of `TestAddTask`: `20240192` has eight digits but names no day,
`28.01.2024` is not made of eight digits. -/
theorem test_dates_rejected : Parse "20240192" = none ∧ Parse "28.01.2024" = none := by
  decide

/-- C11. For every clock and every store, a create request whose title is empty, or
whose date is not empty and not a strict `YYYYMMDD` string naming an existing day,
gets an error response (missing title, bad date, or the failure to read the clock) and
leaves the store unchanged. -/
theorem addTaskHandler_rejects (clock : Time) (db : DB) (task : Task)
    (h : task.Title = "" ∨ (task.Date ≠ "" ∧ ¬ IsDateString task.Date)) :
    (addTaskHandler clock db task).2 = db ∧
    ((addTaskHandler clock db task).1 = .noTitle ∨
      (addTaskHandler clock db task).1 = .badDate ∨
      (addTaskHandler clock db task).1 = .badClock) := by
  unfold addTaskHandler
  by_cases ht : task.Title = ""
  · simp [ht]
  · rcases h with h | ⟨hne, hbad⟩
    · exact absurd h ht
    · have hp := (Parse_none_iff task.Date).mpr hbad
      simp only [ht, if_false, hne, hp]
      cases Parse clock.Format with
      | none => simp
      | some now => simp

/-- Witness of C11: the create request `20240192` / `Qwerty` of `TestAddTask`, on
2024-02-01 and an empty store. -/
theorem addTaskHandler_rejects_witness :
    (("Qwerty" : String) = "" ∨
      (("20240192" : String) ≠ "" ∧ ¬ IsDateString "20240192")) ∧
    (addTaskHandler (Date 2024 2 1 0 0) DB.empty
        { ID := "", Date := "20240192", Title := "Qwerty", Comment := "", Repeat := "" }).2 =
      DB.empty ∧
    ((addTaskHandler (Date 2024 2 1 0 0) DB.empty
        { ID := "", Date := "20240192", Title := "Qwerty", Comment := "", Repeat := "" }).1 =
        .noTitle ∨
      (addTaskHandler (Date 2024 2 1 0 0) DB.empty
        { ID := "", Date := "20240192", Title := "Qwerty", Comment := "", Repeat := "" }).1 =
        .badDate ∨
      (addTaskHandler (Date 2024 2 1 0 0) DB.empty
        { ID := "", Date := "20240192", Title := "Qwerty", Comment := "", Repeat := "" }).1 =
        .badClock) :=
  ⟨Or.inr ⟨by decide, (Parse_none_iff "20240192").mp (by decide)⟩,
    addTaskHandler_rejects (Date 2024 2 1 0 0) DB.empty
      { ID := "", Date := "20240192", Title := "Qwerty", Comment := "", Repeat := "" }
      (Or.inr ⟨by decide, (Parse_none_iff "20240192").mp (by decide)⟩)⟩

/-- The three rejected requests of `TestAddTask`, on 2024-02-01 and an empty store. -/
theorem test_rejections :
    addTaskHandler (Date 2024 2 1 0 0) DB.empty
        { ID := "", Date := "20240129", Title := "", Comment := "", Repeat := "" } =
      (.noTitle, DB.empty) ∧
    addTaskHandler (Date 2024 2 1 0 0) DB.empty
        { ID := "", Date := "20240192", Title := "Qwerty", Comment := "", Repeat := "" } =
      (.badDate, DB.empty) ∧
    addTaskHandler (Date 2024 2 1 0 0) DB.empty
        { ID := "", Date := "28.01.2024", Title := "Заголовок", Comment := "", Repeat := "" } =
      (.badDate, DB.empty) := by
  decide

/-! ## Edit validation: claim C12 -/

/-- For a date that parses, `nextDate` succeeds exactly on the rules with a step; for
a date that does not parse it fails. -/
theorem nextDate_ok_iff_date (now : Time) (date rule : String) :
    (∃ r, nextDate now date rule = .ok r) ↔
      (IsDateString date ∧ (ruleStep rule).isSome = true) := by
  constructor
  · rintro ⟨r, hr⟩
    obtain ⟨a, ha⟩ := nextDate_ok_parse hr
    exact ⟨(Parse_isSome_iff date).mp ⟨a, ha⟩, (nextDate_ok_iff now date rule a ha).mp ⟨r, hr⟩⟩
  · rintro ⟨hd, hs⟩
    obtain ⟨a, ha⟩ := (Parse_isSome_iff date).mpr hd
    exact (nextDate_ok_iff now date rule a ha).mpr hs

/-- What `editTaskHandler` accepts, for a record whose identifier is in the store:
a non-empty title; with an empty repeat, a date that is empty or a strict `YYYYMMDD`
string; with a non-empty repeat, a date that is a strict `YYYYMMDD` string and a rule
with a step. An empty date passes only together with an empty repeat. -/
theorem editTaskHandler_accepts_iff (rowid : String → Option Int) (clock : Time) (db : DB)
    (task : Task) (r : Row) (hfind : db.find (rowid task.ID) = some r) :
    (editTaskHandler rowid clock db task).1 = .done ↔
      (task.Title ≠ "" ∧
        (task.Repeat = "" → task.Date = "" ∨ IsDateString task.Date) ∧
        (task.Repeat ≠ "" → IsDateString task.Date ∧ (ruleStep task.Repeat).isSome = true)) := by
  unfold editTaskHandler
  by_cases ht : task.Title = ""
  · simp [ht]
  simp only [ht, if_false, ne_eq, not_false_eq_true, true_and]
  by_cases hd : task.Date = ""
  · by_cases hr : task.Repeat = ""
    · simp [hd, hr, hfind]
    · have hbad : ¬ IsDateString "" := by
        rw [← Parse_none_iff]; decide
      have hn : nextDate clock "" task.Repeat = .error .badDate := by
        have : Parse "" = none := by decide
        simp only [nextDate, this]
      simp [hd, hr, hn, hbad]
  · by_cases hp : Parse task.Date = none
    · have hbad := (Parse_none_iff task.Date).mp hp
      simp only [hd, hp, not_false_eq_true, and_self, if_true, false_or]
      constructor
      · intro h; cases h
      · rintro ⟨h1, h2⟩
        by_cases hr : task.Repeat = ""
        · exact absurd (h1 hr) hbad
        · exact absurd (h2 hr).1 hbad
    · have hgood : IsDateString task.Date := by
        by_contra hc
        exact hp ((Parse_none_iff task.Date).mpr hc)
      simp only [hd, hp, and_false, if_false, false_or, hgood, implies_true, true_and]
      by_cases hr : task.Repeat = ""
      · simp [hr, hfind]
      · simp only [hr, not_false_eq_true, if_true, forall_const]
        cases hn : nextDate clock task.Date task.Repeat with
        | error e =>
          simp only
          constructor
          · intro h; cases h
          · intro hs
            have := (nextDate_ok_iff_date clock task.Date task.Repeat).mpr ⟨hgood, hs⟩
            obtain ⟨x, hx⟩ := this
            rw [hn] at hx; cases hx
        | ok x =>
          simp only [hfind, true_iff]
          exact ((nextDate_ok_iff_date clock task.Date task.Repeat).mp ⟨x, hn⟩).2

/-- C12, the failing input. A record with the title `T`, an empty date and the valid
rule `y` (or `d 5`) is rejected by `editTaskHandler` with the error of `nextDate` for a
date that does not parse, for every clock, every store and every identifier, and the
store stays as it is: the handler checks the rule with `nextDate` on the empty date and
fills in today only afterwards. Both rules are valid, and on a store holding task 1
the same record with the date `20240201` is accepted. -/
theorem edit_rejects_rule_without_date (rowid : String → Option Int) (clock : Time) (db : DB)
    (id comment : String) :
    editTaskHandler rowid clock db
        { ID := id, Date := "", Title := "T", Comment := comment, Repeat := "y" } =
      (.badRule .badDate, db) ∧
    editTaskHandler rowid clock db
        { ID := id, Date := "", Title := "T", Comment := comment, Repeat := "d 5" } =
      (.badRule .badDate, db) ∧
    (ruleStep "y").isSome = true ∧ (ruleStep "d 5").isSome = true ∧
    editTaskHandler (fun s => if s = "1" then some 1 else none) (Date 2024 2 1 0 0)
        { rows := [{ id := 1, Date := "20240115", Title := "Old", Comment := "",
                     Repeat := "" }], seq := 1 }
        { ID := "1", Date := "20240201", Title := "T", Comment := "", Repeat := "y" } =
      (.done, { rows := [{ id := 1, Date := "20240201", Title := "T", Comment := "",
                           Repeat := "y" }], seq := 1 }) ∧
    editTaskHandler (fun s => if s = "1" then some 1 else none) (Date 2024 2 1 0 0)
        { rows := [{ id := 1, Date := "20240115", Title := "Old", Comment := "",
                     Repeat := "" }], seq := 1 }
        { ID := "1", Date := "", Title := "T", Comment := "", Repeat := "y" } =
      (.badRule .badDate,
        { rows := [{ id := 1, Date := "20240115", Title := "Old", Comment := "",
                     Repeat := "" }], seq := 1 }) := by
  have hp : Parse "" = none := by decide
  have hn : ∀ rule : String, nextDate clock "" rule = .error .badDate := by
    intro rule
    simp only [nextDate, hp]
  have ht : ("T" : String) ≠ "" := by decide
  have hy : ("y" : String) ≠ "" := by decide
  have hd5 : ("d 5" : String) ≠ "" := by decide
  refine ⟨?_, ?_, ?_, ?_, by decide, by decide⟩
  · simp only [editTaskHandler, ht, if_false, ne_eq, not_true_eq_false, false_and, hy,
      not_false_eq_true, if_true, hn]
  · simp only [editTaskHandler, ht, if_false, ne_eq, not_true_eq_false, false_and, hd5,
      not_false_eq_true, if_true, hn]
  · rw [ruleStep_y]; rfl
  · rw [show ("d 5" : String) = "d " ++ toString (5 : Int) from rfl,
      ruleStep_d 5 (by decide) (by decide)]; rfl

end Scheduler
